import Mathlib

/-!
# Convolution as a sparse operator (`Challenge1.cpp`)

A shallow embedding of `convolutionMatrix` and `filterImage` and of the two
pixel quantisers used by `main`, followed by the properties proved about them.

Modelling conventions.

* C++ `int` is modelled by `Int`. Signed overflow is undefined in C++: a call of
  `convolutionMatrix` whose size computations leave the `int` range has no defined
  result (`sizesDefined`), and every statement about it carries the size bound.
  Integer division is C++ division, truncating towards zero (`Int.tdiv`). Running out
  of memory is not modelled.
* `double` values are modelled by their exact values. The convolution is stated in exact
  arithmetic over an abstract carrier `α` (`ℚ` for the concrete kernels). The quantisers
  work on `ℚ` and round the product `pixel * 255` to the nearest binary64 value
  (`roundDouble`).
* A read `kernel(a, b)` outside the kernel's rows and columns has no defined
  result; the model returns `none` for the whole call in that case.
* The Eigen operations the program calls (`setFromTriplets`, sparse product,
  transpose, difference, `norm`, `nonZeros`) are modelled on lists of stored
  entries. The order of that list carries no meaning.
-/

namespace Challenge1

/-! ## Definitions -/

/-- The values `lo, lo+1, ..., hi-1` visited by `for (int x = lo; x < hi; x++)`. -/
def forRange (lo hi : Int) : List Int :=
  (List.range (hi - lo).toNat).map fun (t : Nat) => lo + (t : Int)

/-- An `Eigen::Triplet<double>`: a row, a column and a value. -/
structure Triplet (α : Type) where
  row : Int
  col : Int
  value : α

/-- A dense row-major `Matrix<double, Dynamic, Dynamic, RowMajor>` used as kernel. -/
structure Kernel (α : Type) where
  rows : Nat
  cols : Nat
  coeff : Nat → Nat → α

/-- The read `kernel(a, b)`: defined only inside the kernel. -/
def Kernel.read {α : Type} (kernel : Kernel α) (a b : Int) : Option α :=
  if 0 ≤ a ∧ a < (kernel.rows : Int) ∧ 0 ≤ b ∧ b < (kernel.cols : Int) then
    some (kernel.coeff a.toNat b.toNat)
  else none

/-- A `SparseMatrix<double, RowMajor>`: its dimensions and its stored entries,
one per stored position. -/
structure SparseMatrix (α : Type) where
  rows : Int
  cols : Int
  entries : List (Triplet α)

/-- One step of sparse assembly: a triplet whose position is already stored is
added to the stored value, any other triplet becomes a new stored entry. -/
def accumulate {α : Type} [Add α] (t : Triplet α) : List (Triplet α) → List (Triplet α)
  | [] => [t]
  | e :: es =>
    if e.row = t.row ∧ e.col = t.col then
      { row := e.row, col := e.col, value := e.value + t.value } :: es
    else e :: accumulate t es

/-- The method `setFromTriplets`: one stored entry per distinct position, duplicates summed. -/
def setFromTriplets {α : Type} [Add α] (ts : List (Triplet α)) : List (Triplet α) :=
  ts.foldl (fun acc t => accumulate t acc) []

/-- All results of a list of fallible reads, or `none` when one of them failed. -/
def allDefined {β : Type} : List (Option β) → Option (List β)
  | [] => some []
  | none :: _ => none
  | some x :: rest => (allDefined rest).map fun xs => x :: xs

/-- The list `hav2TripletList` built by the four nested loops of `convolutionMatrix`
(source lines 27-47); each element carries the kernel read it needs. -/
def hav2TripletList {α : Type} (kernel : Kernel α) (height width : Int) :
    List (Option (Triplet α)) :=
  let kernel_size : Int := (kernel.rows : Int)
  let m := height
  let n := width
  (forRange 0 m).flatMap fun i =>
    (forRange 0 n).flatMap fun j =>
      let index_Ai := i * n + j
      (forRange (Int.tdiv (-kernel_size) 2) (Int.tdiv kernel_size 2 + 1)).flatMap fun ki =>
        (forRange (Int.tdiv (-kernel_size) 2) (Int.tdiv kernel_size 2 + 1)).flatMap fun kj =>
          let ci := i + ki
          let cj := j + kj
          if ci ≥ 0 ∧ ci < m ∧ cj ≥ 0 ∧ cj < n then
            let index_Aj := ci * n + cj
            [(kernel.read (ki + Int.tdiv kernel_size 2) (kj + Int.tdiv kernel_size 2)).map
              fun x => Triplet.mk index_Ai index_Aj x]
          else []

/-- The values of type `int` (32 bits, two's complement). -/
@[reducible] def fitsInt (x : Int) : Prop :=
  -2147483648 ≤ x ∧ x ≤ 2147483647

/-- The `int` computations that `convolutionMatrix` makes outside its loops are defined:
the arguments and `kernel_size` (line 18) are values of type `int`; `mn = m * n` (line 21)
does not overflow and is not negative (line 22 builds an `mn`×`mn` matrix); the products
`mn * kernel_size` and `mn * kernel_size * kernel_size` passed to `reserve` (line 25) do not
overflow. Under these conditions every index computed inside the loops is in range too. -/
@[reducible] def sizesDefined (kernel_size height width : Int) : Prop :=
  fitsInt height ∧ fitsInt width ∧ fitsInt kernel_size ∧
  0 ≤ height * width ∧ fitsInt (height * width) ∧
  fitsInt (height * width * kernel_size) ∧
  fitsInt (height * width * kernel_size * kernel_size)

/-- The function `convolutionMatrix` (source lines 16-51): the `mn`×`mn` matrix assembled
from `hav2TripletList`. When a size computation of lines 18-25 overflows `int` (signed
overflow is undefined; in practice `reserve` throws `std::length_error`) or a kernel read
leaves the kernel, the call has no defined result and the model returns `none`. -/
def convolutionMatrix {α : Type} [Add α] (kernel : Kernel α) (height width : Int) :
    Option (SparseMatrix α) :=
  let kernel_size : Int := (kernel.rows : Int)
  let mn := height * width
  if sizesDefined kernel_size height width then
    (allDefined (hav2TripletList kernel height width)).map fun ts =>
      { rows := mn, cols := mn, entries := setFromTriplets ts }
  else none

/-- The method `nonZeros()`: the number of stored entries. -/
def SparseMatrix.nonZeros {α : Type} (A : SparseMatrix α) : Nat :=
  A.entries.length

/-- The stored entries of `A` at position `(r, c)`. -/
def SparseMatrix.stored {α : Type} (A : SparseMatrix α) (r c : Int) : List (Triplet α) :=
  A.entries.filter fun e => decide (e.row = r ∧ e.col = c)

/-- The method `coeff(r, c)`: the stored value at `(r, c)`, zero where nothing is stored. -/
def SparseMatrix.coeff {α : Type} [Add α] [Zero α] (A : SparseMatrix α) (r c : Int) : α :=
  ((A.stored r c).map fun e => e.value).sum

/-- The method `transpose()`: every stored entry with row and column swapped. -/
def SparseMatrix.transpose {α : Type} (A : SparseMatrix α) : SparseMatrix α :=
  { rows := A.cols, cols := A.rows,
    entries := A.entries.map fun e => Triplet.mk e.col e.row e.value }

/-- The sparse difference `A - B`: stored on the union of the two patterns. -/
def SparseMatrix.sub {α : Type} [Add α] [Neg α] (A B : SparseMatrix α) : SparseMatrix α :=
  { rows := A.rows, cols := A.cols,
    entries := setFromTriplets
      (A.entries ++ B.entries.map fun e => Triplet.mk e.row e.col (-e.value)) }

/-- The method `squaredNorm()`: the sum of the squares of the stored values;
`norm()` is its square root. -/
def SparseMatrix.squaredNorm {α : Type} [Add α] [Zero α] [Mul α] (A : SparseMatrix α) : α :=
  (A.entries.map fun e => e.value * e.value).sum

/-- The product `convolutionMatrix * vectorData` of `filterImage` (source line 57),
defined when the vector has as many coefficients as the operator has columns: coefficient
`r` is the sum over the stored entries of row `r` of the value times the vector coefficient
at the entry's column. -/
def SparseMatrix.mulVec {α : Type} [Add α] [Zero α] [Mul α] (A : SparseMatrix α)
    (v : List α) : Option (List α) :=
  if A.cols = (v.length : Int) then
    some ((forRange 0 A.rows).map fun r =>
      ((A.entries.filter fun e => decide (e.row = r)).map
        fun e => e.value * (v[e.col.toNat]?).getD 0).sum)
  else none

/-- The grid `sharpen_image_matrix` of `filterImage` (source lines 57-65): the product
reshaped row by row, before quantisation. -/
def sharpen_image_matrix {α : Type} [Add α] [Zero α] [Mul α] (A : SparseMatrix α)
    (vectorData : List α) (height width : Int) : Option (List (List α)) :=
  (A.mulVec vectorData).bind fun filtered_image_vector =>
    allDefined ((forRange 0 height).map fun i =>
      allDefined ((forRange 0 width).map fun j =>
        filtered_image_vector[(i * width + j).toNat]?))

/-- Rounding of a rational to the nearest integer, ties to the even one. -/
def roundHalfEven (q : ℚ) : Int :=
  if q - (⌊q⌋ : ℚ) < 1 / 2 then ⌊q⌋
  else if 1 / 2 < q - (⌊q⌋ : ℚ) then ⌊q⌋ + 1
  else if ⌊q⌋ % 2 = 0 then ⌊q⌋ else ⌊q⌋ + 1

/-- The exponent of the spacing of the binary64 values around `x > 0`: 53 significant
bits, and never below the subnormal spacing `2^-1074`. -/
def ulpExponent (x : ℚ) : Int :=
  max (Int.log 2 x - 52) (-1074)

/-- The binary64 value nearest to `x ≥ 0`, ties to even. -/
def roundMagnitude (x : ℚ) : ℚ :=
  (roundHalfEven (x / (2 : ℚ) ^ ulpExponent x) : ℚ) * (2 : ℚ) ^ ulpExponent x

/-- The IEEE 754 binary64 rounding (to nearest, ties to even) of an exact result `x`: the
value of a `double` operation whose exact result is `x`. A result of magnitude `2^1024` or
more stands for an infinity; the quantisers only compare it with 0 and 255. -/
def roundDouble (x : ℚ) : ℚ :=
  if 0 ≤ x then roundMagnitude x else -roundMagnitude (-x)

/-- The conversion `static_cast<unsigned char>(x)` of a value in `[0, 255]`:
the fractional part is discarded. -/
def toUnsignedChar (x : ℚ) : Nat :=
  (Int.tdiv x.num (x.den : Int)).toNat

/-- The quantiser of `filterImage` (source lines 69-70): the `double` product
`pixel * 255`, clamped to `[0, 255]`, converted. -/
def scaleThenClamp (pixel : ℚ) : Nat :=
  toUnsignedChar (max 0 (min 255 (roundDouble (pixel * 255))))

/-- The quantiser of the noised preview in `main` (source lines 151 and 158):
the value clamped to `[0, 1]`, the `double` product with 255, converted. -/
def clampThenScale (noisedData : ℚ) : Nat :=
  toUnsignedChar (roundDouble (max 0 (min 1 noisedData) * 255))

/-- The function `filterImage` (source lines 54-71), up to the PNG encoding: the bytes
handed to `stbi_write_png`. -/
def filterImage (A : SparseMatrix ℚ) (vectorData : List ℚ) (height width : Int) :
    Option (List (List Nat)) :=
  (sharpen_image_matrix A vectorData height width).map fun g =>
    g.map fun row => row.map scaleThenClamp

/-- The direct sliding-window sum at cell `(i, j)`, as the specification words it: over all
offsets `ki, kj` in `[-r, r]` whose target cell is inside the grid. -/
def slidingWindow {α : Type} [Add α] [Zero α] [Mul α] (K : Nat → Nat → α) (r m n : Int)
    (v : List α) (i j : Int) : α :=
  ((forRange (-r) (r + 1)).map fun ki =>
    ((forRange (-r) (r + 1)).map fun kj =>
      if 0 ≤ i + ki ∧ i + ki < m ∧ 0 ≤ j + kj ∧ j + kj < n then
        K (ki + r).toNat (kj + r).toNat * (v[((i + ki) * n + (j + kj)).toNat]?).getD 0
      else 0).sum).sum

/-- The uniform averaging kernel `hav2` of `main` (source lines 176-178), of size `k`. -/
def hav2 (k : Nat) : Kernel ℚ :=
  { rows := k, cols := k, coeff := fun _ _ => 1 / ((k : ℚ) * (k : ℚ)) }

/-- The sharpening kernel `hsh2` of `main` (source lines 188-191). -/
def hsh2 : Kernel ℚ :=
  { rows := 3, cols := 3,
    coeff := fun a b =>
      match a, b with
      | 0, 1 => -3
      | 1, 0 => -1
      | 1, 1 => 9
      | 1, 2 => -3
      | 2, 1 => -1
      | _, _ => 0 }

/-- The Laplacian kernel `hlap` of `main` (source lines 206-209). -/
def hlap : Kernel ℚ :=
  { rows := 3, cols := 3,
    coeff := fun a b =>
      match a, b with
      | 0, 1 => -1
      | 1, 0 => -1
      | 1, 1 => 4
      | 1, 2 => -1
      | 2, 1 => -1
      | _, _ => 0 }

/-- The point reflection of a kernel: `K'[a][b] = K[rows-1-a][cols-1-b]`. -/
def Kernel.reflect {α : Type} (K : Kernel α) : Kernel α :=
  { rows := K.rows, cols := K.cols,
    coeff := fun a b => K.coeff (K.rows - 1 - a) (K.cols - 1 - b) }

/-- The position of a triplet. -/
def Triplet.pos {α : Type} (t : Triplet α) : Int × Int := (t.row, t.col)

/-- The triplets emitted for the cell `(i, j)` by the two inner loops, for radius `r`,
when every kernel read is defined. -/
def cellTriplets {α : Type} (K : Nat → Nat → α) (r m n i j : Int) : List (Triplet α) :=
  (forRange (-r) (r + 1)).flatMap fun ki =>
    (forRange (-r) (r + 1)).flatMap fun kj =>
      if i + ki ≥ 0 ∧ i + ki < m ∧ j + kj ≥ 0 ∧ j + kj < n then
        [Triplet.mk (i * n + j) ((i + ki) * n + (j + kj)) (K (ki + r).toNat (kj + r).toNat)]
      else []

/-- The triplets emitted by the four loops, for radius `r`, when every kernel read is defined. -/
def emitted {α : Type} (K : Nat → Nat → α) (r m n : Int) : List (Triplet α) :=
  (forRange 0 m).flatMap fun i => (forRange 0 n).flatMap fun j => cellTriplets K r m n i j

/-- A small kernel over the integers with pairwise distinct weights, used to instantiate
the general statements. -/
def sampleKernel : Kernel Int :=
  { rows := 3, cols := 3, coeff := fun a b => 3 * (a : Int) + (b : Int) }

/-- A 2×2 kernel over the integers: a kernel of even size. -/
def evenKernel : Kernel Int :=
  { rows := 2, cols := 2, coeff := fun a b => 2 * (a : Int) + (b : Int) + 1 }

/-- The number of stored entries in row `r` of the operator. -/
def SparseMatrix.rowNonZeros {α : Type} (A : SparseMatrix α) (r : Int) : Nat :=
  (A.entries.filter fun e => decide (e.row = r)).length

/-- The number of offsets `ki` in `[-r, r]` with `0 ≤ i + ki < m`. -/
def offsetsInside (r m i : Int) : Nat :=
  ((forRange (-r) (r + 1)).filter fun ki => decide (i + ki ≥ 0 ∧ i + ki < m)).length

/-- The number of kernel offsets `(ki, kj)` in `[-r, r] × [-r, r]` whose target cell
`(i + ki, j + kj)` is inside the `m`×`n` grid. -/
def inBoundsOffsets (r m n i j : Int) : Nat :=
  ((forRange (-r) (r + 1)).map fun ki =>
    ((forRange (-r) (r + 1)).filter fun kj =>
      decide (i + ki ≥ 0 ∧ i + ki < m ∧ j + kj ≥ 0 ∧ j + kj < n)).length).sum

/-- The sum of the values a list of triplets holds at position `(r, c)`. -/
def valueAt {α : Type} [Add α] [Zero α] (l : List (Triplet α)) (r c : Int) : α :=
  ((l.filter fun e => decide (e.row = r ∧ e.col = c)).map fun e => e.value).sum

/-! ## Auxiliary lemmas -/

theorem mem_forRange (lo hi x : Int) : x ∈ forRange lo hi ↔ lo ≤ x ∧ x < hi := by
  unfold forRange
  simp only [List.mem_map, List.mem_range]
  constructor
  · rintro ⟨t, ht, rfl⟩
    omega
  · rintro ⟨h1, h2⟩
    exact ⟨(x - lo).toNat, by omega, by omega⟩

theorem nodup_forRange (lo hi : Int) : (forRange lo hi).Nodup := by
  unfold forRange
  refine List.Nodup.map_on ?_ (List.nodup_range _)
  intro x _ y _ h
  omega

theorem length_forRange (lo hi : Int) : (forRange lo hi).length = (hi - lo).toNat := by
  simp [forRange]

theorem tdiv_size (k : Nat) : Int.tdiv (k : Int) 2 = (k : Int) / 2 :=
  Int.tdiv_eq_ediv (by omega) (by omega)

theorem tdiv_neg_size (k : Nat) : Int.tdiv (-(k : Int)) 2 = -((k : Int) / 2) := by
  rw [Int.neg_tdiv, tdiv_size]

/-- The row-major index `i * n + j` determines the cell `(i, j)`. -/
theorem flat_index_inj {n i j i' j' : Int} (hj : 0 ≤ j) (hjn : j < n) (hj' : 0 ≤ j')
    (hjn' : j' < n) (h : i * n + j = i' * n + j') : i = i' ∧ j = j' := by
  have h1 : (i * n + j) % n = j := by
    rw [Int.add_comm, Int.add_mul_emod_self]
    exact Int.emod_eq_of_lt hj hjn
  have h2 : (i' * n + j') % n = j' := by
    rw [Int.add_comm, Int.add_mul_emod_self]
    exact Int.emod_eq_of_lt hj' hjn'
  have hjj : j = j' := by rw [← h1, ← h2, h]
  subst hjj
  have hn : n ≠ 0 := by omega
  have h3 : i * n = i' * n := by omega
  exact ⟨Int.eq_of_mul_eq_mul_right hn h3, rfl⟩

theorem flat_index_bounds {m n i j : Int} (hi : 0 ≤ i) (him : i < m) (hj : 0 ≤ j)
    (hjn : j < n) : 0 ≤ i * n + j ∧ i * n + j < m * n := by
  have h1 : 0 ≤ i * n := Int.mul_nonneg hi (by omega)
  have h2 : (i + 1) * n ≤ m * n := Int.mul_le_mul_of_nonneg_right (by omega) (by omega)
  have h3 : (i + 1) * n = i * n + n := by ring
  omega

theorem allDefined_map_some {β : Type} (l : List β) : allDefined (l.map some) = some l := by
  induction l with
  | nil => rfl
  | cons x xs ih => simp [allDefined, ih]

theorem accumulate_fresh {α : Type} [Add α] (t : Triplet α) (acc : List (Triplet α))
    (h : ∀ e ∈ acc, e.pos ≠ t.pos) : accumulate t acc = acc ++ [t] := by
  induction acc with
  | nil => rfl
  | cons e es ih =>
    have he : ¬ (e.row = t.row ∧ e.col = t.col) := by
      intro hc
      exact h e (List.mem_cons_self _ _) (by simp [Triplet.pos, hc.1, hc.2])
    simp only [accumulate, he, if_false, List.cons_append]
    rw [ih (fun x hx => h x (List.mem_cons_of_mem _ hx))]

theorem foldl_accumulate_nodup {α : Type} [Add α] (ts acc : List (Triplet α))
    (h : ((acc ++ ts).map Triplet.pos).Nodup) :
    ts.foldl (fun a t => accumulate t a) acc = acc ++ ts := by
  induction ts generalizing acc with
  | nil => simp
  | cons t rest ih =>
    have hfresh : ∀ e ∈ acc, e.pos ≠ t.pos := by
      intro e he heq
      rw [List.map_append, List.nodup_append] at h
      exact h.2.2 (List.mem_map_of_mem _ he) (by simp [heq])
    simp only [List.foldl_cons]
    rw [accumulate_fresh t acc hfresh, ih (acc ++ [t]) (by simpa using h)]
    simp

/-- Assembly of triplets with pairwise distinct positions stores them unchanged. -/
theorem setFromTriplets_nodup {α : Type} [Add α] (ts : List (Triplet α))
    (h : (ts.map Triplet.pos).Nodup) : setFromTriplets ts = ts := by
  unfold setFromTriplets
  simpa using foldl_accumulate_nodup ts [] (by simpa using h)

/-- When every executed kernel read stays inside the kernel, the loops emit `emitted`. -/
theorem hav2TripletList_eq_of_reads {α : Type} (K : Kernel α) (m n : Int)
    (H : ∀ i j ki kj : Int, 0 ≤ i → i < m → 0 ≤ j → j < n →
      -((K.rows : Int) / 2) ≤ ki → ki ≤ (K.rows : Int) / 2 →
      -((K.rows : Int) / 2) ≤ kj → kj ≤ (K.rows : Int) / 2 →
      0 ≤ i + ki → i + ki < m → 0 ≤ j + kj → j + kj < n →
      ki + (K.rows : Int) / 2 < (K.rows : Int) ∧ kj + (K.rows : Int) / 2 < (K.cols : Int)) :
    hav2TripletList K m n = (emitted K.coeff ((K.rows : Int) / 2) m n).map some := by
  unfold hav2TripletList emitted cellTriplets
  simp only [tdiv_size, tdiv_neg_size, List.map_flatMap]
  refine List.flatMap_congr fun i hi => List.flatMap_congr fun j hj =>
    List.flatMap_congr fun ki hki => List.flatMap_congr fun kj hkj => ?_
  rw [mem_forRange] at hi hj hki hkj
  by_cases hc : i + ki ≥ 0 ∧ i + ki < m ∧ j + kj ≥ 0 ∧ j + kj < n
  · have hb := H i j ki kj hi.1 hi.2 hj.1 hj.2 hki.1 (by omega) hkj.1 (by omega)
      hc.1 hc.2.1 hc.2.2.1 hc.2.2.2
    have hread : K.read (ki + (K.rows : Int) / 2) (kj + (K.rows : Int) / 2)
        = some (K.coeff (ki + (K.rows : Int) / 2).toNat (kj + (K.rows : Int) / 2).toNat) := by
      unfold Kernel.read
      rw [if_pos]
      omega
    simp only [hc, and_self, if_true, hread, Option.map_some', List.map_cons, List.map_nil]
  · simp only [hc, if_false, List.map_nil]

theorem hav2TripletList_eq {α : Type} (K : Kernel α) (k : Nat) (hk : k % 2 = 1)
    (hrows : K.rows = k) (hcols : K.cols = k) (m n : Int) :
    hav2TripletList K m n = (emitted K.coeff ((k : Int) / 2) m n).map some := by
  subst hrows
  refine hav2TripletList_eq_of_reads K m n ?_
  intro i j ki kj _ _ _ _ _ h2 _ h4 _ _ _ _
  rw [hcols]
  omega

theorem mem_cellTriplets {α : Type} (K : Nat → Nat → α) (r m n i j : Int) (t : Triplet α) :
    t ∈ cellTriplets K r m n i j ↔
      ∃ ki kj, -r ≤ ki ∧ ki ≤ r ∧ -r ≤ kj ∧ kj ≤ r ∧
        0 ≤ i + ki ∧ i + ki < m ∧ 0 ≤ j + kj ∧ j + kj < n ∧
        t = Triplet.mk (i * n + j) ((i + ki) * n + (j + kj)) (K (ki + r).toNat (kj + r).toNat) := by
  unfold cellTriplets
  simp only [List.mem_flatMap, mem_forRange]
  constructor
  · rintro ⟨ki, ⟨h1, h2⟩, kj, ⟨h3, h4⟩, ht⟩
    by_cases hc : i + ki ≥ 0 ∧ i + ki < m ∧ j + kj ≥ 0 ∧ j + kj < n
    · rw [if_pos hc] at ht
      refine ⟨ki, kj, h1, by omega, h3, by omega, hc.1, hc.2.1, hc.2.2.1, hc.2.2.2, ?_⟩
      simpa using ht
    · rw [if_neg hc] at ht
      simp at ht
  · rintro ⟨ki, kj, h1, h2, h3, h4, h5, h6, h7, h8, rfl⟩
    refine ⟨ki, ⟨h1, by omega⟩, kj, ⟨h3, by omega⟩, ?_⟩
    rw [if_pos ⟨h5, h6, h7, h8⟩]
    simp

theorem mem_emitted {α : Type} (K : Nat → Nat → α) (r m n : Int) (t : Triplet α) :
    t ∈ emitted K r m n ↔
      ∃ i j, 0 ≤ i ∧ i < m ∧ 0 ≤ j ∧ j < n ∧ t ∈ cellTriplets K r m n i j := by
  unfold emitted
  simp only [List.mem_flatMap, mem_forRange]
  constructor
  · rintro ⟨i, ⟨h1, h2⟩, j, ⟨h3, h4⟩, ht⟩
    exact ⟨i, j, h1, h2, h3, h4, ht⟩
  · rintro ⟨i, j, h1, h2, h3, h4, ht⟩
    exact ⟨i, ⟨h1, h2⟩, j, ⟨h3, h4⟩, ht⟩

theorem nodup_flatMap_of {β γ : Type} {l : List β} {f : β → List γ} (hl : l.Nodup)
    (hf : ∀ x ∈ l, (f x).Nodup)
    (hd : ∀ x ∈ l, ∀ y ∈ l, ∀ c, c ∈ f x → c ∈ f y → x = y) : (l.flatMap f).Nodup := by
  rw [List.nodup_flatMap]
  refine ⟨hf, List.Nodup.pairwise_of_forall_ne hl ?_⟩
  intro a ha b hb hab c hca hcb
  exact hab (hd a ha b hb c hca hcb)

theorem nodup_cellTriplets {α : Type} (K : Nat → Nat → α) (r m n i j : Int) :
    ((cellTriplets K r m n i j).map Triplet.pos).Nodup := by
  unfold cellTriplets
  simp only [List.map_flatMap]
  refine nodup_flatMap_of (nodup_forRange _ _) ?_ ?_
  · intro ki _
    refine nodup_flatMap_of (nodup_forRange _ _) ?_ ?_
    · intro kj _
      split <;> simp
    · intro kj _ kj' _ c hc hc'
      by_cases h1 : i + ki ≥ 0 ∧ i + ki < m ∧ j + kj ≥ 0 ∧ j + kj < n
      · by_cases h2 : i + ki ≥ 0 ∧ i + ki < m ∧ j + kj' ≥ 0 ∧ j + kj' < n
        · rw [if_pos h1] at hc
          rw [if_pos h2] at hc'
          simp only [List.map_cons, List.map_nil, List.mem_singleton, Triplet.pos] at hc hc'
          rw [hc] at hc'
          simp only [Prod.mk.injEq, true_and] at hc'
          have := flat_index_inj h1.2.2.1 h1.2.2.2 h2.2.2.1 h2.2.2.2 hc'
          omega
        · rw [if_neg h2] at hc'
          simp at hc'
      · rw [if_neg h1] at hc
        simp at hc
  · intro ki _ ki' _ c hc hc'
    simp only [List.mem_flatMap, mem_forRange] at hc hc'
    obtain ⟨kj, _, hc⟩ := hc
    obtain ⟨kj', _, hc'⟩ := hc'
    by_cases h1 : i + ki ≥ 0 ∧ i + ki < m ∧ j + kj ≥ 0 ∧ j + kj < n
    · by_cases h2 : i + ki' ≥ 0 ∧ i + ki' < m ∧ j + kj' ≥ 0 ∧ j + kj' < n
      · rw [if_pos h1] at hc
        rw [if_pos h2] at hc'
        simp only [List.map_cons, List.map_nil, List.mem_singleton, Triplet.pos] at hc hc'
        rw [hc] at hc'
        simp only [Prod.mk.injEq, true_and] at hc'
        have := flat_index_inj h1.2.2.1 h1.2.2.2 h2.2.2.1 h2.2.2.2 hc'
        omega
      · rw [if_neg h2] at hc'
        simp at hc'
    · rw [if_neg h1] at hc
      simp at hc

theorem cellTriplets_row {α : Type} (K : Nat → Nat → α) (r m n i j : Int) (t : Triplet α)
    (ht : t ∈ cellTriplets K r m n i j) : t.row = i * n + j := by
  rw [mem_cellTriplets] at ht
  obtain ⟨ki, kj, -, -, -, -, -, -, -, -, rfl⟩ := ht
  rfl

/-- No two emitted triplets share a position. -/
theorem nodup_emitted {α : Type} (K : Nat → Nat → α) (r m n : Int) :
    ((emitted K r m n).map Triplet.pos).Nodup := by
  unfold emitted
  simp only [List.map_flatMap]
  refine nodup_flatMap_of (nodup_forRange _ _) ?_ ?_
  · intro i _
    refine nodup_flatMap_of (nodup_forRange _ _) ?_ ?_
    · intro j _
      exact nodup_cellTriplets K r m n i j
    · intro j hj j' hj' c hc hc'
      rw [mem_forRange] at hj hj'
      rw [List.mem_map] at hc hc'
      obtain ⟨s, hs, rfl⟩ := hc
      obtain ⟨t, ht, hst⟩ := hc'
      have e1 := cellTriplets_row K r m n i j s hs
      have e2 := cellTriplets_row K r m n i j' t ht
      have e3 : t.row = s.row := congrArg Prod.fst hst
      have := flat_index_inj hj.1 hj.2 hj'.1 hj'.2 (by rw [← e1, ← e2, e3])
      exact this.2
  · intro i _ i' _ c hc hc'
    simp only [List.mem_flatMap, mem_forRange, List.mem_map] at hc hc'
    obtain ⟨j, hj, s, hs, rfl⟩ := hc
    obtain ⟨j', hj', t, ht, hst⟩ := hc'
    have e1 := cellTriplets_row K r m n i j s hs
    have e2 := cellTriplets_row K r m n i' j' t ht
    have e3 : t.row = s.row := congrArg Prod.fst hst
    have := flat_index_inj hj.1 hj.2 hj'.1 hj'.2 (by rw [← e1, ← e2, e3])
    exact this.1

/-- Sizes within the `int` range, with `m * n * k * k` within it, make every size
computation of `convolutionMatrix` defined. -/
theorem sizesDefined_of_bounds (k m n : Nat) (hm : m ≤ 2147483647) (hn : n ≤ 2147483647)
    (hk' : k ≤ 2147483647) (hsize : m * n * k * k ≤ 2147483647) (h : 1 ≤ k ∨ m * n = 0) :
    sizesDefined (k : Int) (m : Int) (n : Int) := by
  have h1 : m * n ≤ 2147483647 ∧ m * n * k ≤ 2147483647 := by
    rcases h with h | h
    · have a1 : m * n * k ≤ m * n * k * k := Nat.le_mul_of_pos_right _ (by omega)
      have a2 : m * n ≤ m * n * k := Nat.le_mul_of_pos_right _ (by omega)
      omega
    · rw [h]
      simp
  have e1 : (m : Int) * n = ((m * n : Nat) : Int) := by push_cast; ring
  have e2 : (m : Int) * n * k = ((m * n * k : Nat) : Int) := by push_cast; ring
  have e3 : (m : Int) * n * k * k = ((m * n * k * k : Nat) : Int) := by push_cast; ring
  unfold sizesDefined fitsInt
  rw [e3, e2, e1]
  omega

/-- Beyond the size bound the call has no defined result: the argument of `reserve`
(line 25) leaves the `int` range. -/
theorem convolutionMatrix_of_overflow {α : Type} [Add α] (K : Kernel α) (m n : Nat)
    (h : 2147483647 < m * n * K.rows * K.rows) :
    convolutionMatrix K (m : Int) (n : Int) = none := by
  have e3 : (m : Int) * n * K.rows * K.rows = ((m * n * K.rows * K.rows : Nat) : Int) := by
    push_cast
    ring
  unfold convolutionMatrix
  simp only
  rw [if_neg]
  unfold sizesDefined fitsInt
  rw [e3]
  omega

theorem bounds_of_size (k m n : Nat) (hk : 1 ≤ k) (hm : 1 ≤ m) (hn : 1 ≤ n)
    (hsize : m * n * k * k ≤ 2147483647) :
    m ≤ 2147483647 ∧ n ≤ 2147483647 ∧ k ≤ 2147483647 := by
  have a1 : m * n * k ≤ m * n * k * k := Nat.le_mul_of_pos_right _ (by omega)
  have a2 : m * n ≤ m * n * k := Nat.le_mul_of_pos_right _ (by omega)
  have a3 : m ≤ m * n := Nat.le_mul_of_pos_right _ (by omega)
  have a4 : n ≤ m * n := Nat.le_mul_of_pos_left _ (by omega)
  have a5 : k ≤ m * n * k := Nat.le_mul_of_pos_left _ (Nat.mul_pos (by omega) (by omega))
  omega

/-- For an odd `k`×`k` kernel and sizes within the `int` range every read is defined and the
operator stores exactly the emitted triplets. -/
theorem convolutionMatrix_eq {α : Type} [Add α] (K : Kernel α) (k : Nat) (hk : k % 2 = 1)
    (hrows : K.rows = k) (hcols : K.cols = k) (m n : Nat)
    (hm : m ≤ 2147483647) (hn : n ≤ 2147483647) (hk' : k ≤ 2147483647)
    (hsize : m * n * k * k ≤ 2147483647) :
    allDefined (hav2TripletList K (m : Int) (n : Int))
      = some (emitted K.coeff ((k : Int) / 2) (m : Int) (n : Int)) ∧
    convolutionMatrix K (m : Int) (n : Int) = some
      { rows := (m : Int) * n, cols := (m : Int) * n,
        entries := emitted K.coeff ((k : Int) / 2) (m : Int) (n : Int) } := by
  have h := hav2TripletList_eq K k hk hrows hcols (m : Int) (n : Int)
  have h2 : allDefined (hav2TripletList K (m : Int) (n : Int))
      = some (emitted K.coeff ((k : Int) / 2) (m : Int) (n : Int)) := by
    rw [h, allDefined_map_some]
  refine ⟨h2, ?_⟩
  have hg : sizesDefined (K.rows : Int) (m : Int) (n : Int) := by
    rw [hrows]
    exact sizesDefined_of_bounds k m n hm hn hk' hsize (Or.inl (by omega))
  unfold convolutionMatrix
  simp only [if_pos hg, h2, Option.map_some', setFromTriplets_nodup _ (nodup_emitted _ _ _ _)]

theorem filter_pos_of_mem {α : Type} (l : List (Triplet α)) (h : (l.map Triplet.pos).Nodup)
    (t : Triplet α) (ht : t ∈ l) :
    l.filter (fun e => decide (e.row = t.row ∧ e.col = t.col)) = [t] := by
  induction l with
  | nil => simp at ht
  | cons e es ih =>
    rw [List.map_cons, List.nodup_cons] at h
    rcases List.mem_cons.mp ht with rfl | hmem
    · have hnil : es.filter (fun e => decide (e.row = t.row ∧ e.col = t.col)) = [] := by
        rw [List.filter_eq_nil_iff]
        intro a ha hdec
        have hpos : a.pos = t.pos := by
          simp only [decide_eq_true_eq] at hdec
          simp [Triplet.pos, hdec.1, hdec.2]
        exact h.1 (hpos ▸ List.mem_map_of_mem _ ha)
      rw [List.filter_cons, hnil]
      simp
    · have hne : ¬ (e.row = t.row ∧ e.col = t.col) := by
        intro hc
        have hpos : e.pos = t.pos := by simp [Triplet.pos, hc.1, hc.2]
        exact h.1 (hpos ▸ List.mem_map_of_mem _ hmem)
      simp only [List.filter_cons, hne, decide_False, Bool.false_eq_true, if_false]
      exact ih h.2 hmem

theorem allDefined_of_mem_none {β : Type} (l : List (Option β)) (h : none ∈ l) :
    allDefined l = none := by
  induction l with
  | nil => simp at h
  | cons a rest ih =>
    cases a with
    | none => rfl
    | some x =>
      have h2 : none ∈ rest := by simpa using h
      simp [allDefined, ih h2]

/-- A read of row `a` or column `b` outside the kernel makes the whole call undefined. -/
theorem hav2TripletList_none {α : Type} (K : Kernel α) (m n i j ki kj : Int)
    (hi : 0 ≤ i ∧ i < m) (hj : 0 ≤ j ∧ j < n)
    (hki : -((K.rows : Int) / 2) ≤ ki ∧ ki ≤ (K.rows : Int) / 2)
    (hkj : -((K.rows : Int) / 2) ≤ kj ∧ kj ≤ (K.rows : Int) / 2)
    (hc : i + ki ≥ 0 ∧ i + ki < m ∧ j + kj ≥ 0 ∧ j + kj < n)
    (hout : (K.rows : Int) ≤ ki + (K.rows : Int) / 2 ∨ (K.cols : Int) ≤ kj + (K.rows : Int) / 2) :
    none ∈ hav2TripletList K m n := by
  unfold hav2TripletList
  simp only [tdiv_size, tdiv_neg_size, List.mem_flatMap, mem_forRange]
  refine ⟨i, hi, j, hj, ki, ⟨hki.1, by omega⟩, kj, ⟨hkj.1, by omega⟩, ?_⟩
  rw [if_pos hc]
  have hread : K.read (ki + (K.rows : Int) / 2) (kj + (K.rows : Int) / 2) = none := by
    unfold Kernel.read
    rw [if_neg]
    omega
  simp [hread]

theorem roundHalfEven_bounds (q : ℚ) : ⌊q⌋ ≤ roundHalfEven q ∧ roundHalfEven q ≤ ⌊q⌋ + 1 := by
  unfold roundHalfEven
  split_ifs <;> omega

theorem roundHalfEven_near (q : ℚ) : |(roundHalfEven q : ℚ) - q| ≤ 1 / 2 := by
  have h1 := Int.floor_le q
  have h2 := Int.lt_floor_add_one q
  unfold roundHalfEven
  rw [abs_le]
  split_ifs with a b c
  · constructor <;> linarith
  · push_cast
    constructor <;> linarith
  · have e : q - (⌊q⌋ : ℚ) = 1 / 2 := le_antisymm (not_lt.mp b) (not_lt.mp a)
    constructor <;> linarith
  · have e : q - (⌊q⌋ : ℚ) = 1 / 2 := le_antisymm (not_lt.mp b) (not_lt.mp a)
    push_cast
    constructor <;> linarith

theorem roundHalfEven_le_of_le (q : ℚ) (N : Int) (h : q ≤ (N : ℚ)) : roundHalfEven q ≤ N := by
  have hf : ⌊q⌋ ≤ N := Int.floor_le_floor h |>.trans (by rw [Int.floor_intCast])
  have h1 := Int.floor_le q
  unfold roundHalfEven
  split_ifs with a b c
  · exact hf
  · have : (⌊q⌋ : ℚ) < N := by linarith
    have : ⌊q⌋ < N := by exact_mod_cast this
    omega
  · exact hf
  · have e : q - (⌊q⌋ : ℚ) = 1 / 2 := le_antisymm (not_lt.mp b) (not_lt.mp a)
    have : (⌊q⌋ : ℚ) < N := by linarith
    have : ⌊q⌋ < N := by exact_mod_cast this
    omega

theorem le_roundHalfEven_of_le (q : ℚ) (N : Int) (h : (N : ℚ) ≤ q) : N ≤ roundHalfEven q := by
  have hf : N ≤ ⌊q⌋ := Int.le_floor.mpr h
  have := (roundHalfEven_bounds q).1
  omega

theorem roundHalfEven_eq_of_near (q : ℚ) (z : Int) (h : |q - (z : ℚ)| < 1 / 2) :
    roundHalfEven q = z := by
  have h1 := roundHalfEven_near q
  rw [abs_le] at h1
  rw [abs_lt] at h
  have a : ((roundHalfEven q : Int) : ℚ) < (z : ℚ) + 1 := by linarith
  have b : (z : ℚ) - 1 < ((roundHalfEven q : Int) : ℚ) := by linarith
  have a' : roundHalfEven q < z + 1 := by exact_mod_cast a
  have b' : z - 1 < roundHalfEven q := by exact_mod_cast b
  omega

theorem ulpExponent_eq (x : ℚ) (e : Int) (h1 : (2 : ℚ) ^ e ≤ x) (h2 : x < (2 : ℚ) ^ (e + 1))
    (he : -1022 ≤ e) : ulpExponent x = e - 52 := by
  have hx : 0 < x := lt_of_lt_of_le (by positivity) h1
  have a : e ≤ Int.log 2 x := (Int.zpow_le_iff_le_log (by norm_num) hx).mp (by exact_mod_cast h1)
  have b : Int.log 2 x < e + 1 := (Int.lt_zpow_iff_log_lt (by norm_num) hx).mp (by exact_mod_cast h2)
  unfold ulpExponent
  rw [max_eq_left (by omega)]
  omega

theorem roundMagnitude_eq_of (x : ℚ) (e z : Int) (h1 : (2 : ℚ) ^ e ≤ x)
    (h2 : x < (2 : ℚ) ^ (e + 1)) (he : -1022 ≤ e)
    (hz : |x / (2 : ℚ) ^ (e - 52) - (z : ℚ)| < 1 / 2) :
    roundMagnitude x = (z : ℚ) * (2 : ℚ) ^ (e - 52) := by
  unfold roundMagnitude
  rw [ulpExponent_eq x e h1 h2 he, roundHalfEven_eq_of_near _ z hz]

theorem roundMagnitude_zero : roundMagnitude 0 = 0 := by
  unfold roundMagnitude
  rw [zero_div, roundHalfEven_eq_of_near 0 0 (by norm_num)]
  simp

theorem roundMagnitude_nonneg (x : ℚ) (hx : 0 ≤ x) : 0 ≤ roundMagnitude x := by
  unfold roundMagnitude
  have hp : (0 : ℚ) < (2 : ℚ) ^ ulpExponent x := by positivity
  have hq : ((0 : Int) : ℚ) ≤ x / (2 : ℚ) ^ ulpExponent x := by
    rw [Int.cast_zero]
    exact div_nonneg hx hp.le
  have h := le_roundHalfEven_of_le _ 0 hq
  have h' : (0 : ℚ) ≤ (roundHalfEven (x / (2 : ℚ) ^ ulpExponent x) : ℚ) := by exact_mod_cast h
  exact mul_nonneg h' hp.le

theorem zpow_of_nonpos (s : Int) (hs : s ≤ 0) :
    (2 : ℚ) ^ s = ((2 : ℚ) ^ (-s).toNat)⁻¹ := by
  have e : s = -(((-s).toNat : Nat) : Int) := by omega
  conv_lhs => rw [e]
  rw [zpow_neg, zpow_natCast]

theorem roundMagnitude_le_255 (x : ℚ) (hx : 0 ≤ x) (h : x ≤ 255) : roundMagnitude x ≤ 255 := by
  rcases eq_or_lt_of_le hx with h0 | hpos
  · rw [← h0, roundMagnitude_zero]
    norm_num
  · have hlog : Int.log 2 x < 8 := by
      refine (Int.lt_zpow_iff_log_lt (by norm_num) hpos).mp ?_
      norm_num
      linarith
    have hs : ulpExponent x ≤ 0 := by
      unfold ulpExponent
      exact max_le (by omega) (by omega)
    unfold roundMagnitude
    rw [zpow_of_nonpos _ hs]
    have hp : (0 : ℚ) < (2 : ℚ) ^ (-ulpExponent x).toNat := by positivity
    have hq : x / ((2 : ℚ) ^ (-ulpExponent x).toNat)⁻¹
        ≤ (((255 * 2 ^ (-ulpExponent x).toNat : Int)) : ℚ) := by
      push_cast
      rw [div_inv_eq_mul]
      exact mul_le_mul_of_nonneg_right h hp.le
    have hr := roundHalfEven_le_of_le _ _ hq
    have hr' : (roundHalfEven (x / ((2 : ℚ) ^ (-ulpExponent x).toNat)⁻¹) : ℚ)
        ≤ 255 * (2 : ℚ) ^ (-ulpExponent x).toNat := by exact_mod_cast hr
    calc (roundHalfEven (x / ((2 : ℚ) ^ (-ulpExponent x).toNat)⁻¹) : ℚ)
          * ((2 : ℚ) ^ (-ulpExponent x).toNat)⁻¹
        ≤ (255 * (2 : ℚ) ^ (-ulpExponent x).toNat) * ((2 : ℚ) ^ (-ulpExponent x).toNat)⁻¹ :=
          mul_le_mul_of_nonneg_right hr' (inv_nonneg.mpr hp.le)
      _ = 255 := by field_simp

theorem le_roundMagnitude_255 (x : ℚ) (h : 255 ≤ x) : 255 ≤ roundMagnitude x := by
  have hpos : 0 < x := by linarith
  have hlog : 7 ≤ Int.log 2 x := by
    refine (Int.zpow_le_iff_le_log (by norm_num) hpos).mp ?_
    norm_num
    linarith
  have hse : ulpExponent x = Int.log 2 x - 52 := by
    unfold ulpExponent
    exact max_eq_left (by omega)
  rcases le_or_lt (ulpExponent x) 0 with hs | hs
  · unfold roundMagnitude
    rw [zpow_of_nonpos _ hs]
    have hp : (0 : ℚ) < (2 : ℚ) ^ (-ulpExponent x).toNat := by positivity
    have hq : (((255 * 2 ^ (-ulpExponent x).toNat : Int)) : ℚ)
        ≤ x / ((2 : ℚ) ^ (-ulpExponent x).toNat)⁻¹ := by
      push_cast
      rw [div_inv_eq_mul]
      exact mul_le_mul_of_nonneg_right h hp.le
    have hr := le_roundHalfEven_of_le _ _ hq
    have hr' : 255 * (2 : ℚ) ^ (-ulpExponent x).toNat
        ≤ (roundHalfEven (x / ((2 : ℚ) ^ (-ulpExponent x).toNat)⁻¹) : ℚ) := by exact_mod_cast hr
    calc (255 : ℚ) = (255 * (2 : ℚ) ^ (-ulpExponent x).toNat)
          * ((2 : ℚ) ^ (-ulpExponent x).toNat)⁻¹ := by field_simp
      _ ≤ (roundHalfEven (x / ((2 : ℚ) ^ (-ulpExponent x).toNat)⁻¹) : ℚ)
          * ((2 : ℚ) ^ (-ulpExponent x).toNat)⁻¹ :=
          mul_le_mul_of_nonneg_right hr' (inv_nonneg.mpr hp.le)
  · have hx2 : (2 : ℚ) ^ Int.log 2 x ≤ x := by
      have := Int.zpow_log_le_self (b := 2) (r := x) (by norm_num) hpos
      exact_mod_cast this
    have hp : (0 : ℚ) < (2 : ℚ) ^ ulpExponent x := by positivity
    have hsplit : (2 : ℚ) ^ Int.log 2 x = (2 : ℚ) ^ (52 : Int) * (2 : ℚ) ^ ulpExponent x := by
      rw [← zpow_add₀ (by norm_num : (2 : ℚ) ≠ 0), hse]
      congr 1
      omega
    have hq : (((2 ^ 52 : Int)) : ℚ) ≤ x / (2 : ℚ) ^ ulpExponent x := by
      rw [le_div_iff₀ hp]
      push_cast
      rw [hsplit] at hx2
      exact_mod_cast hx2
    have hr := le_roundHalfEven_of_le _ _ hq
    have hr' : (2 : ℚ) ^ 52 ≤ (roundHalfEven (x / (2 : ℚ) ^ ulpExponent x) : ℚ) := by
      exact_mod_cast hr
    have hone : (1 : ℚ) ≤ (2 : ℚ) ^ ulpExponent x := one_le_zpow₀ (by norm_num) hs.le
    unfold roundMagnitude
    calc (255 : ℚ) ≤ (2 : ℚ) ^ 52 * 1 := by norm_num
      _ ≤ (roundHalfEven (x / (2 : ℚ) ^ ulpExponent x) : ℚ) * (2 : ℚ) ^ ulpExponent x :=
        mul_le_mul hr' hone (by norm_num) (le_trans (by positivity) hr')

theorem roundDouble_of_nonneg (x : ℚ) (hx : 0 ≤ x) : roundDouble x = roundMagnitude x := by
  unfold roundDouble
  rw [if_pos hx]

theorem roundDouble_zero : roundDouble 0 = 0 := by
  rw [roundDouble_of_nonneg 0 le_rfl, roundMagnitude_zero]

theorem roundDouble_nonneg (x : ℚ) (hx : 0 ≤ x) : 0 ≤ roundDouble x := by
  rw [roundDouble_of_nonneg x hx]
  exact roundMagnitude_nonneg x hx

theorem roundDouble_nonpos (x : ℚ) (hx : x ≤ 0) : roundDouble x ≤ 0 := by
  unfold roundDouble
  split_ifs with h
  · have e : x = 0 := le_antisymm hx h
    rw [e, roundMagnitude_zero]
  · have := roundMagnitude_nonneg (-x) (by linarith)
    linarith

theorem roundDouble_le_255 (x : ℚ) (hx : 0 ≤ x) (h : x ≤ 255) : roundDouble x ≤ 255 := by
  rw [roundDouble_of_nonneg x hx]
  exact roundMagnitude_le_255 x hx h

theorem le_roundDouble_255 (x : ℚ) (h : 255 ≤ x) : 255 ≤ roundDouble x := by
  rw [roundDouble_of_nonneg x (by linarith)]
  exact le_roundMagnitude_255 x h

theorem roundDouble_255 : roundDouble 255 = 255 :=
  le_antisymm (roundDouble_le_255 255 (by norm_num) le_rfl) (le_roundDouble_255 255 le_rfl)

theorem clamp_commutes_with_scale (v : ℚ) :
    roundDouble (max 0 (min 1 v) * 255) = max 0 (min 255 (roundDouble (v * 255))) := by
  rcases le_total v 0 with h0 | h0
  · have e1 : max 0 (min 1 v) = 0 := max_eq_left (le_trans (min_le_right _ _) h0)
    have h1 := roundDouble_nonpos (v * 255) (by linarith)
    rw [e1, zero_mul, roundDouble_zero, min_eq_right (by linarith), max_eq_left h1]
  · rcases le_total v 1 with h1 | h1
    · have e1 : max 0 (min 1 v) = v := by
        rw [min_eq_right h1, max_eq_right h0]
      have a := roundDouble_nonneg (v * 255) (by linarith)
      have b := roundDouble_le_255 (v * 255) (by linarith) (by linarith)
      rw [e1, min_eq_right b, max_eq_right a]
    · have e1 : max 0 (min 1 v) = 1 := by
        rw [min_eq_left h1]
        exact max_eq_right (by norm_num)
      have a := le_roundDouble_255 (v * 255) (by linarith)
      rw [e1, one_mul, roundDouble_255, min_eq_left a]
      norm_num

theorem toUnsignedChar_of_nonneg (x : ℚ) (hx : 0 ≤ x) : (toUnsignedChar x : Int) = ⌊x⌋ := by
  unfold toUnsignedChar
  have hnum : 0 ≤ x.num := Rat.num_nonneg.mpr hx
  rw [Int.tdiv_eq_ediv hnum (by omega), ← Rat.floor_def]
  exact Int.toNat_of_nonneg (Int.floor_nonneg.mpr hx)

theorem scaleThenClamp_floor (v : ℚ) :
    (scaleThenClamp v : Int) = ⌊max 0 (min 255 (roundDouble (v * 255)))⌋ :=
  toUnsignedChar_of_nonneg _ (le_max_left _ _)

theorem scaleThenClamp_eq_of (v : ℚ) (z : Nat)
    (h1 : (z : ℚ) ≤ max 0 (min 255 (roundDouble (v * 255))))
    (h2 : max 0 (min 255 (roundDouble (v * 255))) < (z : ℚ) + 1) :
    scaleThenClamp v = z := by
  have h := scaleThenClamp_floor v
  have h3 : ⌊max 0 (min 255 (roundDouble (v * 255)))⌋ = (z : Int) := by
    rw [Int.floor_eq_iff]
    exact ⟨by exact_mod_cast h1, by exact_mod_cast h2⟩
  omega

theorem clampThenScale_eq (v : ℚ) : clampThenScale v = scaleThenClamp v := by
  unfold clampThenScale scaleThenClamp
  rw [clamp_commutes_with_scale]

theorem roundDouble_0996 : roundDouble 0.996 = 8971170457722028 * (2 : ℚ) ^ (-53 : Int) := by
  rw [roundDouble_of_nonneg _ (by norm_num)]
  have := roundMagnitude_eq_of 0.996 (-1) 8971170457722028 (by norm_num) (by norm_num)
    (by norm_num) (by rw [abs_lt]; norm_num)
  simpa using this

theorem product_0996 :
    roundDouble (roundDouble 0.996 * 255) = 8936126823121551 * (2 : ℚ) ^ (-45 : Int) := by
  rw [roundDouble_0996, roundDouble_of_nonneg _ (by norm_num)]
  have := roundMagnitude_eq_of (8971170457722028 * (2 : ℚ) ^ (-53 : Int) * 255) 7
    8936126823121551 (by norm_num) (by norm_num) (by norm_num) (by rw [abs_lt]; norm_num)
  simpa using this

theorem roundDouble_12 : roundDouble 1.2 = 5404319552844595 * (2 : ℚ) ^ (-52 : Int) := by
  rw [roundDouble_of_nonneg _ (by norm_num)]
  have := roundMagnitude_eq_of 1.2 0 5404319552844595 (by norm_num) (by norm_num)
    (by norm_num) (by rw [abs_lt]; norm_num)
  simpa using this

theorem roundDouble_inv255 :
    roundDouble (1 / 255) = 4521260802379792 * (2 : ℚ) ^ (-60 : Int) := by
  rw [roundDouble_of_nonneg _ (by norm_num)]
  have := roundMagnitude_eq_of (1 / 255) (-8) 4521260802379792 (by norm_num) (by norm_num)
    (by norm_num) (by rw [abs_lt]; norm_num)
  simpa using this

theorem product_inv255 : roundDouble (roundDouble (1 / 255) * 255) = 1 := by
  rw [roundDouble_inv255, roundDouble_of_nonneg _ (by norm_num)]
  have := roundMagnitude_eq_of (4521260802379792 * (2 : ℚ) ^ (-60 : Int) * 255) (-1)
    9007199254740992 (by norm_num) (by norm_num) (by norm_num) (by rw [abs_lt]; norm_num)
  rw [this]
  norm_num

theorem scaleThenClamp_le (v : ℚ) : scaleThenClamp v ≤ 255 := by
  have h := scaleThenClamp_floor v
  have h2 : ⌊max 0 (min 255 (roundDouble (v * 255)))⌋ ≤ (255 : Int) := by
    have h3 : max 0 (min 255 (roundDouble (v * 255))) ≤ ((255 : Int) : ℚ) := by
      refine max_le (by norm_num) ?_
      exact le_trans (min_le_left _ _) (by norm_num)
    exact (Int.floor_le_floor h3).trans (by rw [Int.floor_intCast])
  omega

theorem flatMap_eq_of_unique {β γ : Type} (l : List β) (f : β → List γ) (a : β)
    (hl : l.Nodup) (ha : a ∈ l) (h : ∀ x ∈ l, x ≠ a → f x = []) : l.flatMap f = f a := by
  induction l with
  | nil => simp at ha
  | cons x xs ih =>
    rw [List.nodup_cons] at hl
    rw [List.flatMap_cons]
    by_cases hxa : x = a
    · subst hxa
      have hnil : xs.flatMap f = [] := by
        rw [List.flatMap_eq_nil_iff]
        intro y hy
        exact h y (List.mem_cons_of_mem _ hy) (fun e => hl.1 (e ▸ hy))
      rw [hnil, List.append_nil]
    · have hmem : a ∈ xs := by
        rcases List.mem_cons.mp ha with e | e
        · exact absurd e.symm hxa
        · exact e
      rw [h x (List.mem_cons_self _ _) hxa, List.nil_append]
      exact ih hl.2 hmem (fun y hy => h y (List.mem_cons_of_mem _ hy))

/-- The stored entries of row `i * n + j` are the triplets emitted for the cell `(i, j)`. -/
theorem filter_row_emitted {α : Type} (K : Nat → Nat → α) (r m n i j : Int)
    (hi : 0 ≤ i ∧ i < m) (hj : 0 ≤ j ∧ j < n) :
    (emitted K r m n).filter (fun e => decide (e.row = i * n + j)) = cellTriplets K r m n i j := by
  unfold emitted
  rw [List.filter_flatMap]
  rw [flatMap_eq_of_unique (forRange 0 m) _ i (nodup_forRange _ _) ((mem_forRange _ _ _).mpr hi)]
  · rw [List.filter_flatMap]
    rw [flatMap_eq_of_unique (forRange 0 n) _ j (nodup_forRange _ _)
      ((mem_forRange _ _ _).mpr hj)]
    · rw [List.filter_eq_self]
      intro t ht
      simp [cellTriplets_row K r m n i j t ht]
    · intro j' hj' hne
      rw [mem_forRange] at hj'
      rw [List.filter_eq_nil_iff]
      intro t ht hdec
      simp only [decide_eq_true_eq] at hdec
      rw [cellTriplets_row K r m n i j' t ht] at hdec
      exact hne (flat_index_inj hj'.1 hj'.2 hj.1 hj.2 hdec).2
  · intro i' _ hne
    rw [List.filter_flatMap, List.flatMap_eq_nil_iff]
    intro j' hj'
    rw [mem_forRange] at hj'
    rw [List.filter_eq_nil_iff]
    intro t ht hdec
    simp only [decide_eq_true_eq] at hdec
    rw [cellTriplets_row K r m n i' j' t ht] at hdec
    exact hne (flat_index_inj hj'.1 hj'.2 hj.1 hj.2 hdec).1

theorem length_flatMap_ite {β γ : Type} (l : List β) (p : β → Prop) [DecidablePred p]
    (g : β → γ) :
    (l.flatMap fun x => if p x then [g x] else []).length
      = (l.filter fun x => decide (p x)).length := by
  induction l with
  | nil => rfl
  | cons x xs ih =>
    rw [List.flatMap_cons, List.length_append, ih, List.filter_cons]
    by_cases hp : p x
    · simp [hp]
      omega
    · simp [hp]

theorem length_cellTriplets {α : Type} (K : Nat → Nat → α) (r m n i j : Int) :
    (cellTriplets K r m n i j).length = inBoundsOffsets r m n i j := by
  unfold cellTriplets inBoundsOffsets
  rw [List.length_flatMap]
  congr 1
  refine List.map_congr_left fun ki _ => ?_
  exact length_flatMap_ite _ _ _

theorem sum_length_filter_and (l1 l2 : List Int) (A B : Int → Prop) [DecidablePred A]
    [DecidablePred B] :
    (l1.map fun x => (l2.filter fun y => decide (A x ∧ B y)).length).sum
      = (l1.filter fun x => decide (A x)).length * (l2.filter fun y => decide (B y)).length := by
  induction l1 with
  | nil => simp
  | cons x rest ih =>
    rw [List.map_cons, List.sum_cons, ih, List.filter_cons]
    by_cases hc : A x
    · have e : (l2.filter fun y => decide (A x ∧ B y)) = l2.filter fun y => decide (B y) := by
        refine List.filter_congr fun y _ => ?_
        simp [hc]
      rw [e]
      simp only [hc, decide_True, if_true, List.length_cons]
      ring
    · have e : (l2.filter fun y => decide (A x ∧ B y)) = [] := by
        rw [List.filter_eq_nil_iff]
        intro y _ hdec
        simp only [decide_eq_true_eq] at hdec
        exact hc hdec.1
      rw [e]
      simp [hc]

theorem inBoundsOffsets_eq_mul (r m n i j : Int) :
    inBoundsOffsets r m n i j = offsetsInside r m i * offsetsInside r n j := by
  unfold inBoundsOffsets offsetsInside
  rw [← sum_length_filter_and (forRange (-r) (r + 1)) (forRange (-r) (r + 1))
    (fun ki => i + ki ≥ 0 ∧ i + ki < m) (fun kj => j + kj ≥ 0 ∧ j + kj < n)]
  congr 1
  refine List.map_congr_left fun ki _ => ?_
  congr 1
  refine List.filter_congr fun kj _ => ?_
  simp only [and_assoc]

theorem offsetsInside_eq (r m i : Int) :
    offsetsInside r m i = (min (r + 1) (m - i) - max (-r) (-i)).toNat := by
  unfold offsetsInside
  rw [← length_forRange]
  refine List.Perm.length_eq ?_
  rw [List.perm_ext_iff_of_nodup ((nodup_forRange _ _).filter _) (nodup_forRange _ _)]
  intro x
  simp only [List.mem_filter, mem_forRange, decide_eq_true_eq]
  omega

theorem rowNonZeros_emitted {α : Type} (K : Nat → Nat → α) (r m n i j : Int)
    (hi : 0 ≤ i ∧ i < m) (hj : 0 ≤ j ∧ j < n) :
    (SparseMatrix.mk (m * n) (m * n) (emitted K r m n)).rowNonZeros (i * n + j)
      = offsetsInside r m i * offsetsInside r n j := by
  unfold SparseMatrix.rowNonZeros
  simp only
  rw [filter_row_emitted K r m n i j hi hj, length_cellTriplets, inBoundsOffsets_eq_mul]

theorem length_emitted {α : Type} (K : Nat → Nat → α) (r m n : Int) :
    (emitted K r m n).length
      = ((forRange 0 m).map fun i =>
          ((forRange 0 n).map fun j => inBoundsOffsets r m n i j).sum).sum := by
  unfold emitted
  rw [List.length_flatMap]
  congr 1
  refine List.map_congr_left fun i _ => ?_
  simp only [Function.comp]
  rw [List.length_flatMap]
  congr 1
  refine List.map_congr_left fun j _ => ?_
  exact length_cellTriplets K r m n i j

theorem sum_inBoundsOffsets (r m n : Int) :
    ((forRange 0 m).map fun i =>
      ((forRange 0 n).map fun j => inBoundsOffsets r m n i j).sum).sum
      = ((forRange 0 m).map fun i => offsetsInside r m i).sum
        * ((forRange 0 n).map fun j => offsetsInside r n j).sum := by
  simp only [inBoundsOffsets_eq_mul, List.sum_map_mul_left, List.sum_map_mul_right]

theorem list_range_sum (f : Nat → Nat) (m : Nat) :
    ((List.range m).map f).sum = ∑ t ∈ Finset.range m, f t := by
  induction m with
  | zero => simp
  | succ m ih => rw [List.sum_range_succ, Finset.sum_range_succ, ih]

theorem two_mul_sum_min (R m : Nat) :
    2 * (∑ t ∈ Finset.range m, min R t) + min R m * (min R m + 1) = 2 * m * min R m := by
  induction m with
  | zero => simp
  | succ m ih =>
    rw [Finset.sum_range_succ]
    rcases Nat.lt_or_ge m R with h | h
    · rw [Nat.min_eq_right (Nat.le_of_lt h)] at ih ⊢
      rw [Nat.min_eq_right (by omega : m + 1 ≤ R)]
      nlinarith
    · rw [Nat.min_eq_left h] at ih ⊢
      rw [Nat.min_eq_left (by omega : R ≤ m + 1)]
      nlinarith

/-- Along one dimension of `m ≥ R` cells, the offsets of radius `R` that stay inside. -/
theorem sum_offsetsInside (R m : Nat) (h : R ≤ m) :
    ((forRange 0 (m : Int)).map fun i => offsetsInside (R : Int) (m : Int) i).sum + R * (R + 1)
      = (2 * R + 1) * m := by
  have e1 : forRange 0 (m : Int) = (List.range m).map fun (t : Nat) => (t : Int) := by
    unfold forRange
    simp
  rw [e1, List.map_map]
  have e2 : ((List.range m).map ((fun i => offsetsInside (R : Int) (m : Int) i) ∘
      fun (t : Nat) => (t : Int)))
      = (List.range m).map fun t => min R (m - 1 - t) + min R t + 1 := by
    refine List.map_congr_left fun t ht => ?_
    rw [List.mem_range] at ht
    simp only [Function.comp, offsetsInside_eq]
    omega
  rw [e2, list_range_sum, Finset.sum_add_distrib, Finset.sum_add_distrib,
    Finset.sum_range_reflect (fun t => min R t) m]
  have h2 := two_mul_sum_min R m
  rw [Nat.min_eq_left h] at h2
  simp only [Finset.sum_const, Finset.card_range, smul_eq_mul, mul_one]
  nlinarith

theorem nodup_emitted_list {α : Type} (K : Nat → Nat → α) (r m n : Int) :
    (emitted K r m n).Nodup :=
  List.Nodup.of_map Triplet.pos (nodup_emitted K r m n)

/-- Swapping row and column of an emitted triplet gives the triplet emitted, at the target
cell and the opposite offset, for any kernel `G` that is the point reflection of `F`. -/
theorem swap_mem_emitted {α : Type} (F G : Nat → Nat → α) (r m n : Int)
    (hFG : ∀ ki kj : Int, -r ≤ ki → ki ≤ r → -r ≤ kj → kj ≤ r →
      G (-ki + r).toNat (-kj + r).toNat = F (ki + r).toNat (kj + r).toNat)
    (t : Triplet α) (ht : t ∈ emitted F r m n) :
    Triplet.mk t.col t.row t.value ∈ emitted G r m n := by
  rw [mem_emitted] at ht
  obtain ⟨i, j, a1, a2, a3, a4, ht⟩ := ht
  rw [mem_cellTriplets] at ht
  obtain ⟨ki, kj, b1, b2, b3, b4, b5, b6, b7, b8, rfl⟩ := ht
  rw [mem_emitted]
  refine ⟨i + ki, j + kj, b5, b6, b7, b8, ?_⟩
  rw [mem_cellTriplets]
  have e1 : i + ki + -ki = i := by omega
  have e2 : j + kj + -kj = j := by omega
  refine ⟨-ki, -kj, by omega, by omega, by omega, by omega, by omega, by omega, by omega,
    by omega, ?_⟩
  rw [e1, e2, hFG ki kj b1 b2 b3 b4]

theorem reflect_coeff {α : Type} (K : Kernel α) (k : Nat) (hk : k % 2 = 1)
    (hrows : K.rows = k) (hcols : K.cols = k) (ki kj : Int)
    (h1 : -((k : Int) / 2) ≤ ki) (h2 : ki ≤ (k : Int) / 2)
    (h3 : -((k : Int) / 2) ≤ kj) (h4 : kj ≤ (k : Int) / 2) :
    K.reflect.coeff (-ki + (k : Int) / 2).toNat (-kj + (k : Int) / 2).toNat
      = K.coeff (ki + (k : Int) / 2).toNat (kj + (k : Int) / 2).toNat := by
  unfold Kernel.reflect
  simp only [hrows, hcols]
  have e1 : k - 1 - (-ki + (k : Int) / 2).toNat = (ki + (k : Int) / 2).toNat := by omega
  have e2 : k - 1 - (-kj + (k : Int) / 2).toNat = (kj + (k : Int) / 2).toNat := by omega
  rw [e1, e2]

theorem coeff_reflect {α : Type} (K : Kernel α) (k : Nat) (hk : k % 2 = 1)
    (hrows : K.rows = k) (hcols : K.cols = k) (ki kj : Int)
    (h1 : -((k : Int) / 2) ≤ ki) (h2 : ki ≤ (k : Int) / 2)
    (h3 : -((k : Int) / 2) ≤ kj) (h4 : kj ≤ (k : Int) / 2) :
    K.coeff (-ki + (k : Int) / 2).toNat (-kj + (k : Int) / 2).toNat
      = K.reflect.coeff (ki + (k : Int) / 2).toNat (kj + (k : Int) / 2).toNat := by
  unfold Kernel.reflect
  simp only [hrows, hcols]
  have e1 : k - 1 - (ki + (k : Int) / 2).toNat = (-ki + (k : Int) / 2).toNat := by omega
  have e2 : k - 1 - (kj + (k : Int) / 2).toNat = (-kj + (k : Int) / 2).toNat := by omega
  rw [e1, e2]

theorem swap_injective {α : Type} :
    Function.Injective (fun e : Triplet α => Triplet.mk e.col e.row e.value) := by
  intro a b h
  cases a
  cases b
  simp only [Triplet.mk.injEq] at h
  simp [h.1, h.2.1, h.2.2]

/-- The transposed emitted triplets of `K` are the emitted triplets of its point reflection. -/
theorem transpose_emitted_perm {α : Type} (K : Kernel α) (k : Nat) (hk : k % 2 = 1)
    (hrows : K.rows = k) (hcols : K.cols = k) (m n : Int) :
    ((emitted K.coeff ((k : Int) / 2) m n).map fun e => Triplet.mk e.col e.row e.value).Perm
      (emitted K.reflect.coeff ((k : Int) / 2) m n) := by
  rw [List.perm_ext_iff_of_nodup
    ((nodup_emitted_list _ _ _ _).map swap_injective) (nodup_emitted_list _ _ _ _)]
  intro e
  constructor
  · intro he
    rw [List.mem_map] at he
    obtain ⟨t, ht, rfl⟩ := he
    exact swap_mem_emitted K.coeff K.reflect.coeff _ m n
      (fun ki kj a b c d => reflect_coeff K k hk hrows hcols ki kj a b c d) t ht
  · intro he
    rw [List.mem_map]
    refine ⟨Triplet.mk e.col e.row e.value, ?_, rfl⟩
    exact swap_mem_emitted K.reflect.coeff K.coeff _ m n
      (fun ki kj a b c d => coeff_reflect K k hk hrows hcols ki kj a b c d) e he

theorem emitted_congr {α : Type} (F G : Nat → Nat → α) (r m n : Int)
    (h : ∀ ki kj : Int, -r ≤ ki → ki ≤ r → -r ≤ kj → kj ≤ r →
      F (ki + r).toNat (kj + r).toNat = G (ki + r).toNat (kj + r).toNat) :
    emitted F r m n = emitted G r m n := by
  unfold emitted cellTriplets
  refine List.flatMap_congr fun i _ => List.flatMap_congr fun j _ =>
    List.flatMap_congr fun ki hki => List.flatMap_congr fun kj hkj => ?_
  rw [mem_forRange] at hki hkj
  rw [h ki kj hki.1 (by omega) hkj.1 (by omega)]

/-- The entries of one position, read through the transpose. -/
theorem stored_transpose {α : Type} (A : SparseMatrix α) (r c : Int) :
    A.transpose.stored r c = (A.stored c r).map fun e => Triplet.mk e.col e.row e.value := by
  unfold SparseMatrix.stored SparseMatrix.transpose
  simp only
  rw [List.filter_map]
  congr 1
  refine List.filter_congr fun e _ => ?_
  simp only [Function.comp]
  exact decide_eq_decide.mpr and_comm

theorem coeff_transpose {α : Type} [Add α] [Zero α] (A : SparseMatrix α) (r c : Int) :
    A.transpose.coeff r c = A.coeff c r := by
  unfold SparseMatrix.coeff
  rw [stored_transpose, List.map_map]
  rfl

theorem coeff_perm {α : Type} [AddCommMonoid α] (A B : SparseMatrix α)
    (h : A.entries.Perm B.entries) (r c : Int) : A.coeff r c = B.coeff r c := by
  unfold SparseMatrix.coeff SparseMatrix.stored
  exact ((h.filter _).map _).sum_eq

theorem stored_nil_or_singleton {α : Type} (l : List (Triplet α))
    (h : (l.map Triplet.pos).Nodup) (r c : Int) :
    (l.filter fun e => decide (e.row = r ∧ e.col = c)) = [] ∨
      ∃ t, (l.filter fun e => decide (e.row = r ∧ e.col = c)) = [t] := by
  cases hf : l.filter fun e => decide (e.row = r ∧ e.col = c) with
  | nil => exact Or.inl rfl
  | cons t rest =>
    right
    have ht : t ∈ l.filter fun e => decide (e.row = r ∧ e.col = c) := by
      rw [hf]
      exact List.mem_cons_self _ _
    rw [List.mem_filter, decide_eq_true_eq] at ht
    have h2 := filter_pos_of_mem l h t ht.1
    rw [ht.2.1, ht.2.2] at h2
    rw [← hf]
    exact ⟨t, h2⟩

theorem eq_of_perm_of_short {β : Type} (l1 l2 : List β) (h : l1.Perm l2)
    (h2 : l2 = [] ∨ ∃ t, l2 = [t]) : l1 = l2 := by
  rcases h2 with e | ⟨t, e⟩
  · subst e
    exact List.Perm.eq_nil h
  · subst e
    exact List.perm_singleton.mp h

/-- A point-symmetric kernel emits a list of triplets that is closed under transposition. -/
theorem transpose_emitted_perm_self {α : Type} (K : Kernel α) (k : Nat) (hk : k % 2 = 1)
    (hrows : K.rows = k) (hcols : K.cols = k) (m n : Int)
    (hsym : ∀ a b : Nat, a < k → b < k → K.coeff a b = K.coeff (k - 1 - a) (k - 1 - b)) :
    ((emitted K.coeff ((k : Int) / 2) m n).map fun e => Triplet.mk e.col e.row e.value).Perm
      (emitted K.coeff ((k : Int) / 2) m n) := by
  have h := transpose_emitted_perm K k hk hrows hcols m n
  have e : emitted K.reflect.coeff ((k : Int) / 2) m n = emitted K.coeff ((k : Int) / 2) m n := by
    refine emitted_congr _ _ _ m n ?_
    intro ki kj h1 h2 h3 h4
    unfold Kernel.reflect
    simp only [hrows, hcols]
    exact (hsym _ _ (by omega) (by omega)).symm
  rw [e] at h
  exact h

theorem valueAt_nil {α : Type} [AddCommMonoid α] (r c : Int) :
    valueAt ([] : List (Triplet α)) r c = 0 := rfl

theorem valueAt_cons {α : Type} [AddCommMonoid α] (e : Triplet α) (l : List (Triplet α))
    (r c : Int) :
    valueAt (e :: l) r c = (if e.row = r ∧ e.col = c then e.value else 0) + valueAt l r c := by
  unfold valueAt
  rw [List.filter_cons]
  by_cases h : e.row = r ∧ e.col = c
  · simp [h]
  · simp [h]

theorem valueAt_append {α : Type} [AddCommMonoid α] (l1 l2 : List (Triplet α)) (r c : Int) :
    valueAt (l1 ++ l2) r c = valueAt l1 r c + valueAt l2 r c := by
  unfold valueAt
  rw [List.filter_append, List.map_append, List.sum_append]

theorem valueAt_neg {α : Type} [AddCommGroup α] (l : List (Triplet α)) (r c : Int) :
    valueAt (l.map fun e => Triplet.mk e.row e.col (-e.value)) r c = -valueAt l r c := by
  induction l with
  | nil => simp [valueAt]
  | cons e es ih =>
    rw [List.map_cons, valueAt_cons, valueAt_cons, ih]
    by_cases h : e.row = r ∧ e.col = c
    · simp only [h, and_self, if_true]
      abel
    · simp only [h, if_false]
      abel

theorem accumulate_valueAt {α : Type} [AddCommMonoid α] (t : Triplet α)
    (acc : List (Triplet α)) (r c : Int) :
    valueAt (accumulate t acc) r c
      = valueAt acc r c + (if t.row = r ∧ t.col = c then t.value else 0) := by
  induction acc with
  | nil => simp [accumulate, valueAt_cons, valueAt_nil]
  | cons e es ih =>
    unfold accumulate
    by_cases he : e.row = t.row ∧ e.col = t.col
    · rw [if_pos he, valueAt_cons, valueAt_cons]
      simp only [he.1, he.2]
      by_cases hp : t.row = r ∧ t.col = c
      · simp only [hp, and_self, if_true]
        abel
      · simp only [hp, if_false]
        abel
    · rw [if_neg he, valueAt_cons, valueAt_cons, ih]
      abel

theorem mem_accumulate_pos {α : Type} [Add α] (t : Triplet α) (acc : List (Triplet α))
    (p : Int × Int) :
    p ∈ (accumulate t acc).map Triplet.pos ↔ p ∈ acc.map Triplet.pos ∨ p = t.pos := by
  induction acc with
  | nil => simp [accumulate]
  | cons e es ih =>
    unfold accumulate
    by_cases he : e.row = t.row ∧ e.col = t.col
    · rw [if_pos he]
      have hpos : e.pos = t.pos := by simp [Triplet.pos, he.1, he.2]
      simp only [List.map_cons, List.mem_cons, Triplet.pos] at hpos ⊢
      constructor
      · intro h
        exact Or.inl h
      · rintro (h | h)
        · exact h
        · left
          rw [h, ← hpos]
    · rw [if_neg he]
      simp only [List.map_cons, List.mem_cons, ih]
      tauto

theorem accumulate_nodup {α : Type} [Add α] (t : Triplet α) (acc : List (Triplet α))
    (h : (acc.map Triplet.pos).Nodup) : ((accumulate t acc).map Triplet.pos).Nodup := by
  induction acc with
  | nil => simp [accumulate]
  | cons e es ih =>
    rw [List.map_cons, List.nodup_cons] at h
    unfold accumulate
    by_cases he : e.row = t.row ∧ e.col = t.col
    · rw [if_pos he]
      rw [List.map_cons, List.nodup_cons]
      exact ⟨h.1, h.2⟩
    · rw [if_neg he, List.map_cons, List.nodup_cons]
      refine ⟨?_, ih h.2⟩
      rw [mem_accumulate_pos]
      rintro (h1 | h1)
      · exact h.1 h1
      · apply he
        simp only [Triplet.pos, Prod.mk.injEq] at h1
        exact h1

theorem foldl_accumulate {α : Type} [AddCommMonoid α] (ts acc : List (Triplet α))
    (h : (acc.map Triplet.pos).Nodup) :
    ((ts.foldl (fun a t => accumulate t a) acc).map Triplet.pos).Nodup ∧
    (∀ r c, valueAt (ts.foldl (fun a t => accumulate t a) acc) r c
      = valueAt acc r c + valueAt ts r c) ∧
    (∀ p, p ∈ (ts.foldl (fun a t => accumulate t a) acc).map Triplet.pos ↔
      p ∈ acc.map Triplet.pos ∨ p ∈ ts.map Triplet.pos) := by
  induction ts generalizing acc with
  | nil => simp [valueAt_nil, h]
  | cons t rest ih =>
    obtain ⟨h1, h2, h3⟩ := ih (accumulate t acc) (accumulate_nodup t acc h)
    simp only [List.foldl_cons]
    refine ⟨h1, ?_, ?_⟩
    · intro r c
      rw [h2, accumulate_valueAt, valueAt_cons]
      abel
    · intro p
      rw [h3, mem_accumulate_pos]
      simp only [List.map_cons, List.mem_cons]
      tauto

/-- What `setFromTriplets` stores: one entry per position of the input, holding the sum
of the input values at that position. -/
theorem setFromTriplets_spec {α : Type} [AddCommMonoid α] (ts : List (Triplet α)) :
    ((setFromTriplets ts).map Triplet.pos).Nodup ∧
    (∀ e ∈ setFromTriplets ts, e.value = valueAt ts e.row e.col) ∧
    (∀ p, p ∈ (setFromTriplets ts).map Triplet.pos ↔ p ∈ ts.map Triplet.pos) := by
  obtain ⟨h1, h2, h3⟩ := foldl_accumulate ts [] (by simp)
  refine ⟨h1, ?_, ?_⟩
  · intro e he
    have h4 := h2 e.row e.col
    have h5 := filter_pos_of_mem _ h1 e he
    rw [valueAt_nil, zero_add] at h4
    rw [← h4]
    unfold valueAt
    rw [h5]
    simp
  · intro p
    have := h3 p
    simpa using this

/-- Every stored value of `A - transpose(A)` is `A[r][c] - A[c][r]`. -/
theorem sub_transpose_value {α : Type} [AddCommGroup α] (A : SparseMatrix α) (e : Triplet α)
    (he : e ∈ (A.sub A.transpose).entries) :
    e.value = A.coeff e.row e.col - A.coeff e.col e.row := by
  unfold SparseMatrix.sub at he
  simp only at he
  rw [(setFromTriplets_spec _).2.1 e he, valueAt_append, valueAt_neg]
  have h1 : valueAt A.transpose.entries e.row e.col = A.coeff e.col e.row :=
    coeff_transpose A e.row e.col
  rw [h1, sub_eq_add_neg]
  rfl

/-- The stored entries of the emitted list at the position of two grid cells. -/
theorem stored_emitted {α : Type} (K : Nat → Nat → α) (r m n i j ci cj : Int)
    (a1 : 0 ≤ i) (a2 : i < m) (a3 : 0 ≤ j) (a4 : j < n)
    (a5 : 0 ≤ ci) (a6 : ci < m) (a7 : 0 ≤ cj) (a8 : cj < n) :
    (SparseMatrix.mk (m * n) (m * n) (emitted K r m n)).stored (i * n + j) (ci * n + cj) =
      if |ci - i| ≤ r ∧ |cj - j| ≤ r then
        [Triplet.mk (i * n + j) (ci * n + cj) (K (ci - i + r).toNat (cj - j + r).toNat)]
      else [] := by
  by_cases hc : |ci - i| ≤ r ∧ |cj - j| ≤ r
  · rw [if_pos hc]
    rw [abs_le, abs_le] at hc
    have hmem : Triplet.mk (i * n + j) (ci * n + cj) (K (ci - i + r).toNat (cj - j + r).toNat)
        ∈ emitted K r m n := by
      rw [mem_emitted]
      refine ⟨i, j, a1, a2, a3, a4, ?_⟩
      rw [mem_cellTriplets]
      have e1 : i + (ci - i) = ci := by omega
      have e2 : j + (cj - j) = cj := by omega
      refine ⟨ci - i, cj - j, hc.1.1, hc.1.2, hc.2.1, hc.2.2, ?_, ?_, ?_, ?_, ?_⟩
      · omega
      · omega
      · omega
      · omega
      · rw [e1, e2]
    exact filter_pos_of_mem _ (nodup_emitted _ _ _ _) _ hmem
  · rw [if_neg hc]
    unfold SparseMatrix.stored
    rw [List.filter_eq_nil_iff]
    intro a ha hdec
    simp only [decide_eq_true_eq] at hdec
    rw [mem_emitted] at ha
    obtain ⟨i', j', c1, c2, c3, c4, ha⟩ := ha
    rw [mem_cellTriplets] at ha
    obtain ⟨ki, kj, b1, b2, b3, b4, b5, b6, b7, b8, rfl⟩ := ha
    obtain ⟨e1, e2⟩ := flat_index_inj c3 c4 a3 a4 hdec.1
    obtain ⟨e3, e4⟩ := flat_index_inj b7 b8 a7 a8 hdec.2
    apply hc
    rw [abs_le, abs_le]
    omega

theorem hlap_point_symmetric (a b : Nat) (ha : a < 3) (hb : b < 3) :
    hlap.coeff a b = hlap.coeff (3 - 1 - a) (3 - 1 - b) := by
  interval_cases a <;> interval_cases b <;> rfl

theorem squaredNorm_nonneg_terms (A : SparseMatrix ℚ) :
    ∀ x ∈ A.entries.map (fun e => e.value * e.value), 0 ≤ x := by
  intro x hx
  rw [List.mem_map] at hx
  obtain ⟨e, -, rfl⟩ := hx
  exact mul_self_nonneg _

theorem getElem?_forRange (lo hi : Int) (t : Nat) (h : (t : Int) < hi - lo) :
    (forRange lo hi)[t]? = some (lo + (t : Int)) := by
  unfold forRange
  rw [List.getElem?_map, List.getElem?_range (by omega)]
  rfl

theorem allDefined_map_of_some {β γ : Type} (l : List β) (h : β → Option γ) (g : β → γ)
    (H : ∀ x ∈ l, h x = some (g x)) : allDefined (l.map h) = some (l.map g) := by
  have e : l.map h = (l.map g).map some := by
    rw [List.map_map]
    exact List.map_congr_left H
  rw [e, allDefined_map_some]

theorem sum_map_flatMap {β γ δ : Type} [AddMonoid δ] (l : List β) (f : β → List γ)
    (g : γ → δ) :
    ((l.flatMap f).map g).sum = (l.map fun x => ((f x).map g).sum).sum := by
  induction l with
  | nil => simp
  | cons x xs ih =>
    rw [List.flatMap_cons, List.map_append, List.sum_append, ih, List.map_cons, List.sum_cons]

/-- The inner product of row `i * n + j` with a vector is the sliding-window sum. -/
theorem rowSum_cellTriplets {α : Type} [Semiring α] (K : Nat → Nat → α) (r m n i j : Int)
    (v : List α) :
    ((cellTriplets K r m n i j).map fun e => e.value * (v[e.col.toNat]?).getD 0).sum
      = slidingWindow K r m n v i j := by
  unfold cellTriplets slidingWindow
  rw [sum_map_flatMap]
  congr 1
  refine List.map_congr_left fun ki _ => ?_
  rw [sum_map_flatMap]
  congr 1
  refine List.map_congr_left fun kj _ => ?_
  by_cases hc : 0 ≤ i + ki ∧ i + ki < m ∧ 0 ≤ j + kj ∧ j + kj < n
  · rw [if_pos hc, if_pos hc]
    simp
  · rw [if_neg hc, if_neg hc]
    simp

/-! ## The stored entries of the operator -/

/-- C1: for an odd `k`×`k` kernel and a grid of `m`×`n` cells, with `k`, `m`, `n` and
`m*n*k*k` within the `int` range, `convolutionMatrix` returns an `mn`×`mn` operator; its stored entries are the emitted triplets, no two of which share a
position; every stored entry sits at `(i*n+j, ci*n+cj)` for two grid cells within the radius
`k/2` of each other; and for all grid cells `(i,j)`, `(ci,cj)` the position `(i*n+j, ci*n+cj)`
holds exactly one stored entry with value `K[ci-i+r][cj-j+r]` when `|ci-i| ≤ r` and
`|cj-j| ≤ r`, and no entry otherwise. -/
theorem convolutionMatrix_entries {α : Type} [Add α] (K : Kernel α) (k : Nat)
    (hk : k % 2 = 1) (hrows : K.rows = k) (hcols : K.cols = k) (m n : Nat)
    (hm : m ≤ 2147483647) (hn : n ≤ 2147483647)
    (hk' : k ≤ 2147483647) (hsize : m * n * k * k ≤ 2147483647) :
    ∃ A : SparseMatrix α, convolutionMatrix K (m : Int) (n : Int) = some A ∧
      A.rows = (m : Int) * n ∧ A.cols = (m : Int) * n ∧
      (∃ ts, allDefined (hav2TripletList K (m : Int) (n : Int)) = some ts ∧
        (ts.map Triplet.pos).Nodup ∧ A.entries = ts) ∧
      (∀ e ∈ A.entries, ∃ i j ci cj : Int,
        0 ≤ i ∧ i < m ∧ 0 ≤ j ∧ j < n ∧ 0 ≤ ci ∧ ci < m ∧ 0 ≤ cj ∧ cj < n ∧
        |ci - i| ≤ (k : Int) / 2 ∧ |cj - j| ≤ (k : Int) / 2 ∧
        e = Triplet.mk (i * n + j) (ci * n + cj)
          (K.coeff (ci - i + (k : Int) / 2).toNat (cj - j + (k : Int) / 2).toNat)) ∧
      (∀ i j ci cj : Int, 0 ≤ i → i < m → 0 ≤ j → j < n → 0 ≤ ci → ci < m → 0 ≤ cj → cj < n →
        A.stored (i * n + j) (ci * n + cj) =
          if |ci - i| ≤ (k : Int) / 2 ∧ |cj - j| ≤ (k : Int) / 2 then
            [Triplet.mk (i * n + j) (ci * n + cj)
              (K.coeff (ci - i + (k : Int) / 2).toNat (cj - j + (k : Int) / 2).toNat)]
          else []) := by
  obtain ⟨h1, h2⟩ := convolutionMatrix_eq K k hk hrows hcols m n hm hn hk' hsize
  refine ⟨_, h2, rfl, rfl, ⟨_, h1, nodup_emitted _ _ _ _, rfl⟩, ?_, ?_⟩
  · intro e he
    rw [mem_emitted] at he
    obtain ⟨i, j, a1, a2, a3, a4, he⟩ := he
    rw [mem_cellTriplets] at he
    obtain ⟨ki, kj, b1, b2, b3, b4, b5, b6, b7, b8, rfl⟩ := he
    refine ⟨i, j, i + ki, j + kj, a1, a2, a3, a4, b5, b6, b7, b8, ?_, ?_, ?_⟩
    · rw [abs_le]; omega
    · rw [abs_le]; omega
    · have e1 : i + ki - i = ki := by omega
      have e2 : j + kj - j = kj := by omega
      rw [e1, e2]
  · intro i j ci cj a1 a2 a3 a4 a5 a6 a7 a8
    exact stored_emitted K.coeff ((k : Int) / 2) (m : Int) (n : Int) i j ci cj
      a1 a2 a3 a4 a5 a6 a7 a8

/-- C1 at the 3×3 sample kernel on a 2×2 grid. -/
theorem convolutionMatrix_entries_witness :
    ∃ A : SparseMatrix Int, convolutionMatrix sampleKernel ((2 : Nat) : Int) ((2 : Nat) : Int)
        = some A ∧
      A.rows = ((2 : Nat) : Int) * (2 : Nat) ∧ A.cols = ((2 : Nat) : Int) * (2 : Nat) ∧
      (∃ ts, allDefined (hav2TripletList sampleKernel ((2 : Nat) : Int) ((2 : Nat) : Int))
          = some ts ∧ (ts.map Triplet.pos).Nodup ∧ A.entries = ts) ∧
      (∀ e ∈ A.entries, ∃ i j ci cj : Int,
        0 ≤ i ∧ i < (2 : Nat) ∧ 0 ≤ j ∧ j < (2 : Nat) ∧ 0 ≤ ci ∧ ci < (2 : Nat) ∧
        0 ≤ cj ∧ cj < (2 : Nat) ∧
        |ci - i| ≤ ((3 : Nat) : Int) / 2 ∧ |cj - j| ≤ ((3 : Nat) : Int) / 2 ∧
        e = Triplet.mk (i * (2 : Nat) + j) (ci * (2 : Nat) + cj)
          (sampleKernel.coeff (ci - i + ((3 : Nat) : Int) / 2).toNat
            (cj - j + ((3 : Nat) : Int) / 2).toNat)) ∧
      (∀ i j ci cj : Int, 0 ≤ i → i < (2 : Nat) → 0 ≤ j → j < (2 : Nat) → 0 ≤ ci →
        ci < (2 : Nat) → 0 ≤ cj → cj < (2 : Nat) →
        A.stored (i * (2 : Nat) + j) (ci * (2 : Nat) + cj) =
          if |ci - i| ≤ ((3 : Nat) : Int) / 2 ∧ |cj - j| ≤ ((3 : Nat) : Int) / 2 then
            [Triplet.mk (i * (2 : Nat) + j) (ci * (2 : Nat) + cj)
              (sampleKernel.coeff (ci - i + ((3 : Nat) : Int) / 2).toNat
                (cj - j + ((3 : Nat) : Int) / 2).toNat)]
          else []) :=
  convolutionMatrix_entries sampleKernel 3 (by decide) rfl rfl 2 2
    (by decide) (by decide) (by decide) (by decide)

/-! ## Applying the operator -/

/-- C2: for an odd `k`×`k` kernel, an `m`×`n` grid and a vector `v` of length `m*n`, with
`k`, `m`, `n` and `m*n*k*k` within the `int` range,
`filterImage` computes, before quantisation, a grid of `m` rows whose cell `(i, j)` is the
coefficient `i*n+j` of the product of the operator with `v`, and that coefficient is the
direct sliding-window sum over the offsets `ki, kj` in `[-r, r]` whose target cell is inside
the grid of `K[ki+r][kj+r] * v[(i+ki)*n + (j+kj)]`, with `r = k/2`. -/
theorem filterImage_is_slidingWindow {α : Type} [Semiring α] (K : Kernel α) (k : Nat)
    (hk : k % 2 = 1) (hrows : K.rows = k) (hcols : K.cols = k) (m n : Nat)
    (hm : m ≤ 2147483647) (hn : n ≤ 2147483647)
    (hk' : k ≤ 2147483647) (hsize : m * n * k * k ≤ 2147483647)
    (v : List α) (hv : v.length = m * n) :
    ∃ (A : SparseMatrix α) (f : List α) (G : List (List α)),
      convolutionMatrix K (m : Int) (n : Int) = some A ∧ A.mulVec v = some f ∧
      sharpen_image_matrix A v (m : Int) (n : Int) = some G ∧
      f.length = m * n ∧ G.length = m ∧
      ∀ i j : Nat, i < m → j < n →
        (G[i]?.bind fun row => row[j]?) = f[i * n + j]? ∧
        f[i * n + j]? = some (slidingWindow K.coeff ((k : Int) / 2) (m : Int) (n : Int) v i j) := by
  obtain ⟨-, hA⟩ := convolutionMatrix_eq K k hk hrows hcols m n hm hn hk' hsize
  have hcast : ((m : Int) * n) = ((v.length : Nat) : Int) := by
    rw [hv]
    push_cast
    rfl
  have hrow : ∀ i j : Int, 0 ≤ i → i < m → 0 ≤ j → j < n →
      (((emitted K.coeff ((k : Int) / 2) (m : Int) (n : Int)).filter
        fun e => decide (e.row = i * n + j)).map
          fun e => e.value * (v[e.col.toNat]?).getD 0).sum
      = slidingWindow K.coeff ((k : Int) / 2) (m : Int) (n : Int) v i j := by
    intro i j a1 a2 a3 a4
    rw [filter_row_emitted _ _ _ _ i j ⟨a1, a2⟩ ⟨a3, a4⟩, rowSum_cellTriplets]
  have hf : (SparseMatrix.mk ((m : Int) * n) ((m : Int) * n)
      (emitted K.coeff ((k : Int) / 2) (m : Int) (n : Int))).mulVec v
      = some ((forRange 0 ((m : Int) * n)).map fun r =>
          (((emitted K.coeff ((k : Int) / 2) (m : Int) (n : Int)).filter
            fun e => decide (e.row = r)).map
              fun e => e.value * (v[e.col.toNat]?).getD 0).sum) := by
    unfold SparseMatrix.mulVec
    simp only
    rw [if_pos hcast]
  have hget : ∀ i j : Int, 0 ≤ i → i < m → 0 ≤ j → j < n →
      ((forRange 0 ((m : Int) * n)).map fun r =>
          (((emitted K.coeff ((k : Int) / 2) (m : Int) (n : Int)).filter
            fun e => decide (e.row = r)).map
              fun e => e.value * (v[e.col.toNat]?).getD 0).sum)[(i * n + j).toNat]?
      = some (slidingWindow K.coeff ((k : Int) / 2) (m : Int) (n : Int) v i j) := by
    intro i j a1 a2 a3 a4
    have hb := flat_index_bounds a1 a2 a3 a4
    rw [List.getElem?_map, getElem?_forRange 0 _ _ (by omega)]
    have e : (0 : Int) + ((i * (n : Int) + j).toNat : Int) = i * n + j := by omega
    rw [e]
    simp only [Option.map_some']
    rw [hrow i j a1 a2 a3 a4]
  have hG : sharpen_image_matrix (SparseMatrix.mk ((m : Int) * n) ((m : Int) * n)
      (emitted K.coeff ((k : Int) / 2) (m : Int) (n : Int))) v (m : Int) (n : Int)
      = some ((forRange 0 (m : Int)).map fun i => (forRange 0 (n : Int)).map fun j =>
          slidingWindow K.coeff ((k : Int) / 2) (m : Int) (n : Int) v i j) := by
    unfold sharpen_image_matrix
    rw [hf]
    simp only [Option.some_bind]
    refine allDefined_map_of_some _ _ _ ?_
    intro i hi
    rw [mem_forRange] at hi
    refine allDefined_map_of_some _ _ _ ?_
    intro j hj
    rw [mem_forRange] at hj
    exact hget i j hi.1 hi.2 hj.1 hj.2
  refine ⟨_, _, _, hA, hf, hG, ?_, ?_, ?_⟩
  · rw [List.length_map, length_forRange]
    have : ((m : Int) * n - 0).toNat = m * n := by
      rw [sub_zero, ← Nat.cast_mul]
      exact Int.toNat_natCast _
    exact this
  · rw [List.length_map, length_forRange]
    omega
  · intro i j hi hj
    have h1 := hget (i : Int) (j : Int) (by omega) (by omega) (by omega) (by omega)
    have e : ((i : Int) * n + j).toNat = i * n + j := by
      rw [← Nat.cast_mul, ← Nat.cast_add]
      exact Int.toNat_natCast _
    rw [e] at h1
    refine ⟨?_, h1⟩
    rw [h1, List.getElem?_map, getElem?_forRange 0 _ _ (by omega)]
    simp only [Option.map_some', Option.some_bind]
    rw [List.getElem?_map, getElem?_forRange 0 _ _ (by omega)]
    simp only [Option.map_some', zero_add]

/-- C2 at the 3×3 sample kernel on a 2×2 grid with the vector `[1, 10, 100, 1000]`. -/
theorem filterImage_is_slidingWindow_witness :
    ∃ (A : SparseMatrix Int) (f : List Int) (G : List (List Int)),
      convolutionMatrix sampleKernel ((2 : Nat) : Int) ((2 : Nat) : Int) = some A ∧
      A.mulVec [1, 10, 100, 1000] = some f ∧
      sharpen_image_matrix A [1, 10, 100, 1000] ((2 : Nat) : Int) ((2 : Nat) : Int) = some G ∧
      f.length = 2 * 2 ∧ G.length = 2 ∧
      ∀ i j : Nat, i < 2 → j < 2 →
        (G[i]?.bind fun row => row[j]?) = f[i * 2 + j]? ∧
        f[i * 2 + j]? = some (slidingWindow sampleKernel.coeff (((3 : Nat) : Int) / 2)
          ((2 : Nat) : Int) ((2 : Nat) : Int) [1, 10, 100, 1000] i j) :=
  filterImage_is_slidingWindow sampleKernel 3 (by decide) rfl rfl 2 2
    (by decide) (by decide) (by decide) (by decide) [1, 10, 100, 1000] rfl

/-! ## Kernels of even size -/

/-- C3, as stated, fails: called with the 2×2 kernel `evenKernel` on a 1×1 grid,
`convolutionMatrix` raises nothing and returns a 1×1 operator whose single stored
entry is the kernel weight `K[1][1] = 4`. -/
theorem even_kernel_accepted :
    evenKernel.rows % 2 = 0 ∧
    ∃ A : SparseMatrix Int, convolutionMatrix evenKernel 1 1 = some A ∧
      A.rows = 1 ∧ A.cols = 1 ∧ A.entries = [Triplet.mk 0 0 4] :=
  ⟨rfl, _, rfl, rfl, rfl, rfl⟩

/-- C3, amended: `convolutionMatrix` does not check the kernel size. With an even
`k`×`k` kernel (`k = 0` included) on an `m`×`n` grid, for sizes of type `int` with
`m*n*k*k` within the `int` range, it returns an operator exactly when the grid is empty or
`m ≤ k/2` and `n ≤ k/2`; on every other grid a kernel read falls outside the kernel and
the call has no defined result. -/
theorem convolutionMatrix_even_kernel {α : Type} [Add α] (K : Kernel α) (k : Nat)
    (hk : k % 2 = 0) (hrows : K.rows = k) (hcols : K.cols = k) (m n : Nat)
    (hm : m ≤ 2147483647) (hn : n ≤ 2147483647)
    (hk' : k ≤ 2147483647) (hsize : m * n * k * k ≤ 2147483647) :
    (convolutionMatrix K (m : Int) (n : Int)).isSome = true ↔
      (m = 0 ∨ n = 0 ∨ (m ≤ k / 2 ∧ n ≤ k / 2)) := by
  subst hrows
  constructor
  · intro h
    by_contra hcon
    have hm0 : 0 < m := by omega
    have hn0 : 0 < n := by omega
    have hnone : none ∈ hav2TripletList K (m : Int) (n : Int) := by
      by_cases hmr : m ≤ K.rows / 2
      · have hnr : ¬ n ≤ K.rows / 2 := fun h' => hcon (Or.inr (Or.inr ⟨hmr, h'⟩))
        refine hav2TripletList_none K m n 0 0 0 ((K.rows : Int) / 2)
          (by omega) (by omega) (by omega) (by omega) (by omega) ?_
        rw [hcols]
        omega
      · refine hav2TripletList_none K m n 0 0 ((K.rows : Int) / 2) 0
          (by omega) (by omega) (by omega) (by omega) (by omega) ?_
        omega
    have hres : convolutionMatrix K (m : Int) (n : Int) = none := by
      unfold convolutionMatrix
      simp only [allDefined_of_mem_none _ hnone, Option.map_none', ite_self]
    rw [hres] at h
    simp at h
  · intro h
    have heq : hav2TripletList K (m : Int) (n : Int)
        = (emitted K.coeff ((K.rows : Int) / 2) (m : Int) (n : Int)).map some := by
      refine hav2TripletList_eq_of_reads K m n ?_
      intro i j ki kj _ _ _ _ _ _ _ _ _ _ _ _
      rw [hcols]
      omega
    have hcase : 1 ≤ K.rows ∨ m * n = 0 := by
      rcases h with h | h | h
      · right
        rw [h, Nat.zero_mul]
      · right
        rw [h, Nat.mul_zero]
      · by_cases h0 : m = 0
        · right
          rw [h0, Nat.zero_mul]
        · left
          omega
    have hg : sizesDefined (K.rows : Int) (m : Int) (n : Int) :=
      sizesDefined_of_bounds K.rows m n hm hn hk' hsize hcase
    unfold convolutionMatrix
    simp only [if_pos hg, heq, allDefined_map_some, Option.map_some', Option.isSome_some]

/-- C3, amended, at the 2×2 kernel `evenKernel` on a 1×1 grid. -/
theorem convolutionMatrix_even_kernel_witness :
    (convolutionMatrix evenKernel ((1 : Nat) : Int) ((1 : Nat) : Int)).isSome = true ↔
      ((1 : Nat) = 0 ∨ (1 : Nat) = 0 ∨ ((1 : Nat) ≤ 2 / 2 ∧ (1 : Nat) ≤ 2 / 2)) :=
  convolutionMatrix_even_kernel evenKernel 2 (by decide) rfl rfl 1 1
    (by decide) (by decide) (by decide) (by decide)

/-! ## The number of stored entries -/

/-- C4: for an odd `k`×`k` kernel with any weights and an `m`×`n` grid with `k < min(m,n)`
and `m*n*k*k` within the `int` range,
the number of stored entries of the operator is the sum over all cells of the number of
in-bounds kernel offsets, which equals `(k*m - r*(r+1)) * (k*n - r*(r+1))` with `r = k/2`;
every in-bounds offset is stored with its kernel weight, whatever that weight is. -/
theorem nonZeros_formula {α : Type} [Add α] (K : Kernel α) (k : Nat) (hk : k % 2 = 1)
    (hrows : K.rows = k) (hcols : K.cols = k) (m n : Nat) (hm : k < m) (hn : k < n)
    (hsize : m * n * k * k ≤ 2147483647) :
    ∃ A : SparseMatrix α, convolutionMatrix K (m : Int) (n : Int) = some A ∧
      A.nonZeros = ((forRange 0 (m : Int)).map fun i =>
        ((forRange 0 (n : Int)).map fun j =>
          inBoundsOffsets ((k : Int) / 2) (m : Int) (n : Int) i j).sum).sum ∧
      (A.nonZeros : Int) = ((k : Int) * m - (k : Int) / 2 * ((k : Int) / 2 + 1))
        * ((k : Int) * n - (k : Int) / 2 * ((k : Int) / 2 + 1)) ∧
      (∀ i j ki kj : Int, 0 ≤ i → i < m → 0 ≤ j → j < n →
        -((k : Int) / 2) ≤ ki → ki ≤ (k : Int) / 2 → -((k : Int) / 2) ≤ kj → kj ≤ (k : Int) / 2 →
        0 ≤ i + ki → i + ki < m → 0 ≤ j + kj → j + kj < n →
        Triplet.mk (i * n + j) ((i + ki) * n + (j + kj))
          (K.coeff (ki + (k : Int) / 2).toNat (kj + (k : Int) / 2).toNat) ∈ A.entries) := by
  obtain ⟨b1, b2, b3⟩ := bounds_of_size k m n (by omega) (by omega) (by omega) hsize
  obtain ⟨-, h2⟩ := convolutionMatrix_eq K k hk hrows hcols m n b1 b2 b3 hsize
  refine ⟨_, h2, length_emitted _ _ _ _, ?_, ?_⟩
  · unfold SparseMatrix.nonZeros
    simp only
    rw [length_emitted, sum_inBoundsOffsets]
    have hr : (k : Int) / 2 = ((k / 2 : Nat) : Int) := by omega
    rw [hr]
    have hM := sum_offsetsInside (k / 2) m (by omega)
    have hN := sum_offsetsInside (k / 2) n (by omega)
    have hk2 : 2 * (k / 2) + 1 = k := by omega
    rw [hk2] at hM hN
    have hM' : ((((forRange 0 (m : Int)).map
        fun i => offsetsInside ((k / 2 : Nat) : Int) (m : Int) i).sum : Nat) : Int)
        = (k : Int) * m - ((k / 2 : Nat) : Int) * (((k / 2 : Nat) : Int) + 1) := by
      have := congrArg (fun x : Nat => (x : Int)) hM
      simp only [Nat.cast_add, Nat.cast_mul, Nat.cast_one] at this
      linarith
    have hN' : ((((forRange 0 (n : Int)).map
        fun j => offsetsInside ((k / 2 : Nat) : Int) (n : Int) j).sum : Nat) : Int)
        = (k : Int) * n - ((k / 2 : Nat) : Int) * (((k / 2 : Nat) : Int) + 1) := by
      have := congrArg (fun x : Nat => (x : Int)) hN
      simp only [Nat.cast_add, Nat.cast_mul, Nat.cast_one] at this
      linarith
    rw [Nat.cast_mul, hM', hN']
  · intro i j ki kj a1 a2 a3 a4 b1 b2 b3 b4 b5 b6 b7 b8
    show _ ∈ emitted K.coeff ((k : Int) / 2) (m : Int) (n : Int)
    rw [mem_emitted]
    refine ⟨i, j, a1, a2, a3, a4, ?_⟩
    rw [mem_cellTriplets]
    exact ⟨ki, kj, b1, b2, b3, b4, b5, b6, b7, b8, rfl⟩

/-- C4 at the 3×3 sample kernel on a 4×5 grid: `(3*4-2) * (3*5-2) = 130` stored entries. -/
theorem nonZeros_formula_witness :
    ∃ A : SparseMatrix Int, convolutionMatrix sampleKernel ((4 : Nat) : Int) ((5 : Nat) : Int)
        = some A ∧
      A.nonZeros = ((forRange 0 ((4 : Nat) : Int)).map fun i =>
        ((forRange 0 ((5 : Nat) : Int)).map fun j =>
          inBoundsOffsets (((3 : Nat) : Int) / 2) ((4 : Nat) : Int) ((5 : Nat) : Int) i j).sum).sum ∧
      (A.nonZeros : Int) = 130 := by
  obtain ⟨A, h1, h2, h3, -⟩ :=
    nonZeros_formula sampleKernel 3 (by decide) rfl rfl 4 5 (by decide) (by decide) (by decide)
  refine ⟨A, h1, h2, ?_⟩
  rw [h3]
  norm_num

/-! ## Stored entries per row -/

/-- C5: for the uniform averaging kernel of odd size `k` and an `m`×`n` grid with `m > k`,
`n > k` and `m*n*k*k` within the `int` range, the operator's row of each of the four corner cells has exactly
`((k+1)/2)^2` stored entries and the row `i*n+j` of every interior cell
(`r ≤ i < m-r`, `r ≤ j < n-r`, `r = k/2`) has exactly `k^2` stored entries. -/
theorem hav2_row_counts (k : Nat) (hk : k % 2 = 1) (m n : Nat) (hm : k < m) (hn : k < n)
    (hsize : m * n * k * k ≤ 2147483647) :
    ∃ A : SparseMatrix ℚ, convolutionMatrix (hav2 k) (m : Int) (n : Int) = some A ∧
      A.rowNonZeros 0 = ((k + 1) / 2) ^ 2 ∧
      A.rowNonZeros ((n : Int) - 1) = ((k + 1) / 2) ^ 2 ∧
      A.rowNonZeros (((m : Int) - 1) * n) = ((k + 1) / 2) ^ 2 ∧
      A.rowNonZeros (((m : Int) - 1) * n + ((n : Int) - 1)) = ((k + 1) / 2) ^ 2 ∧
      (∀ i j : Int, (k : Int) / 2 ≤ i → i < (m : Int) - (k : Int) / 2 →
        (k : Int) / 2 ≤ j → j < (n : Int) - (k : Int) / 2 →
        A.rowNonZeros (i * n + j) = k ^ 2) := by
  obtain ⟨b1, b2, b3⟩ := bounds_of_size k m n (by omega) (by omega) (by omega) hsize
  obtain ⟨-, h2⟩ := convolutionMatrix_eq (hav2 k) k hk rfl rfl m n b1 b2 b3 hsize
  have hlow : ∀ s : Nat, k < s → offsetsInside ((k : Int) / 2) (s : Int) 0 = (k + 1) / 2 := by
    intro s hs
    rw [offsetsInside_eq]
    omega
  have hhigh : ∀ s : Nat, k < s →
      offsetsInside ((k : Int) / 2) (s : Int) ((s : Int) - 1) = (k + 1) / 2 := by
    intro s hs
    rw [offsetsInside_eq]
    omega
  have hmid : ∀ (s : Nat) (i : Int), (k : Int) / 2 ≤ i → i < (s : Int) - (k : Int) / 2 →
      offsetsInside ((k : Int) / 2) (s : Int) i = k := by
    intro s i h1 h2
    rw [offsetsInside_eq]
    omega
  refine ⟨_, h2, ?_, ?_, ?_, ?_, ?_⟩
  · have h := rowNonZeros_emitted (hav2 k).coeff ((k : Int) / 2) (m : Int) (n : Int) 0 0
      (by omega) (by omega)
    rw [hlow m hm, hlow n hn] at h
    simpa [pow_two] using h
  · have h := rowNonZeros_emitted (hav2 k).coeff ((k : Int) / 2) (m : Int) (n : Int) 0
      ((n : Int) - 1) (by omega) (by omega)
    rw [hlow m hm, hhigh n hn] at h
    simpa [pow_two] using h
  · have h := rowNonZeros_emitted (hav2 k).coeff ((k : Int) / 2) (m : Int) (n : Int)
      ((m : Int) - 1) 0 (by omega) (by omega)
    rw [hhigh m hm, hlow n hn] at h
    simpa [pow_two] using h
  · have h := rowNonZeros_emitted (hav2 k).coeff ((k : Int) / 2) (m : Int) (n : Int)
      ((m : Int) - 1) ((n : Int) - 1) (by omega) (by omega)
    rw [hhigh m hm, hhigh n hn] at h
    simpa [pow_two] using h
  · intro i j a1 a2 a3 a4
    have h := rowNonZeros_emitted (hav2 k).coeff ((k : Int) / 2) (m : Int) (n : Int) i j
      (by omega) (by omega)
    rw [hmid m i a1 a2, hmid n j a3 a4] at h
    simpa [pow_two] using h

/-- C5 at `k = 3` on a 4×5 grid: corner rows hold 4 entries, interior rows hold 9. -/
theorem hav2_row_counts_witness :
    ∃ A : SparseMatrix ℚ, convolutionMatrix (hav2 3) ((4 : Nat) : Int) ((5 : Nat) : Int)
        = some A ∧
      A.rowNonZeros 0 = ((3 + 1) / 2) ^ 2 ∧
      A.rowNonZeros (((5 : Nat) : Int) - 1) = ((3 + 1) / 2) ^ 2 ∧
      A.rowNonZeros ((((4 : Nat) : Int) - 1) * (5 : Nat)) = ((3 + 1) / 2) ^ 2 ∧
      A.rowNonZeros ((((4 : Nat) : Int) - 1) * (5 : Nat) + (((5 : Nat) : Int) - 1))
        = ((3 + 1) / 2) ^ 2 ∧
      (∀ i j : Int, ((3 : Nat) : Int) / 2 ≤ i → i < ((4 : Nat) : Int) - ((3 : Nat) : Int) / 2 →
        ((3 : Nat) : Int) / 2 ≤ j → j < ((5 : Nat) : Int) - ((3 : Nat) : Int) / 2 →
        A.rowNonZeros (i * (5 : Nat) + j) = 3 ^ 2) :=
  hav2_row_counts 3 (by decide) 4 5 (by decide) (by decide) (by decide)

/-! ## The Laplacian operator -/

/-- C6: for the Laplacian kernel `hlap` and every grid size `m`×`n` with `m`, `n` and
`m*n*3*3` within the `int` range, the operator `A`
satisfies `A[r][c] = A[c][r]` for all `r, c`; the difference `A - transpose(A)` has squared
norm 0, so its norm is 0 and lies below `1e-9`. -/
theorem hlap_operator_symmetric (m n : Nat) (hm : m ≤ 2147483647) (hn : n ≤ 2147483647)
    (hsize : m * n * 3 * 3 ≤ 2147483647) :
    ∃ A : SparseMatrix ℚ, convolutionMatrix hlap (m : Int) (n : Int) = some A ∧
      (∀ r c : Int, A.coeff r c = A.coeff c r) ∧
      A.transpose.entries.Perm A.entries ∧
      (A.sub A.transpose).squaredNorm = 0 ∧
      (A.sub A.transpose).squaredNorm < (1 / 10 ^ 9) ^ 2 := by
  obtain ⟨-, hA⟩ := convolutionMatrix_eq hlap 3 (by decide) rfl rfl m n hm hn (by decide) hsize
  have hself := transpose_emitted_perm_self hlap 3 (by decide) rfl rfl (m : Int) (n : Int)
    hlap_point_symmetric
  have hsym : ∀ r c : Int,
      (SparseMatrix.mk ((m : Int) * n) ((m : Int) * n)
        (emitted hlap.coeff (((3 : Nat) : Int) / 2) (m : Int) (n : Int))).coeff r c
      = (SparseMatrix.mk ((m : Int) * n) ((m : Int) * n)
        (emitted hlap.coeff (((3 : Nat) : Int) / 2) (m : Int) (n : Int))).coeff c r := by
    intro r c
    exact (coeff_transpose _ c r).symm.trans (coeff_perm _ _ hself c r)
  have hzero : (SparseMatrix.sub (SparseMatrix.mk ((m : Int) * n) ((m : Int) * n)
        (emitted hlap.coeff (((3 : Nat) : Int) / 2) (m : Int) (n : Int)))
      (SparseMatrix.mk ((m : Int) * n) ((m : Int) * n)
        (emitted hlap.coeff (((3 : Nat) : Int) / 2) (m : Int) (n : Int))).transpose).squaredNorm
      = 0 := by
    unfold SparseMatrix.squaredNorm
    refine List.sum_eq_zero ?_
    intro x hx
    rw [List.mem_map] at hx
    obtain ⟨e, he, rfl⟩ := hx
    rw [sub_transpose_value _ e he, hsym e.row e.col, sub_self, mul_zero]
  refine ⟨_, hA, hsym, hself, hzero, ?_⟩
  rw [hzero]
  norm_num

/-! ## The sharpening operator -/

/-- C6 on a 4×5 grid. -/
theorem hlap_operator_symmetric_witness :
    ∃ A : SparseMatrix ℚ, convolutionMatrix hlap ((4 : Nat) : Int) ((5 : Nat) : Int) = some A ∧
      (∀ r c : Int, A.coeff r c = A.coeff c r) ∧
      A.transpose.entries.Perm A.entries ∧
      (A.sub A.transpose).squaredNorm = 0 ∧
      (A.sub A.transpose).squaredNorm < (1 / 10 ^ 9) ^ 2 :=
  hlap_operator_symmetric 4 5 (by decide) (by decide) (by decide)

/-- C7: for the sharpening kernel `hsh2` and every grid with height and width at least 3
and `m*n*3*3` within the `int` range,
the operator `A` is not symmetric: `A[0][1] = -3` differs from `A[1][0] = -1`, and the
squared norm of `A - transpose(A)` exceeds `(1e-6)^2`, so its norm exceeds `1e-6`. -/
theorem hsh2_operator_not_symmetric (m n : Nat) (hm : 3 ≤ m) (hn : 3 ≤ n)
    (hsize : m * n * 3 * 3 ≤ 2147483647) :
    ∃ A : SparseMatrix ℚ, convolutionMatrix hsh2 (m : Int) (n : Int) = some A ∧
      (∃ r c : Int, 0 ≤ r ∧ r < (m : Int) * n ∧ 0 ≤ c ∧ c < (m : Int) * n ∧
        A.coeff r c ≠ A.coeff c r) ∧
      A.coeff 0 1 = -3 ∧ A.coeff 1 0 = -1 ∧
      (1 / 10 ^ 6) ^ 2 < (A.sub A.transpose).squaredNorm := by
  obtain ⟨b1, b2, b3⟩ := bounds_of_size 3 m n (by omega) (by omega) (by omega) hsize
  obtain ⟨-, hA⟩ := convolutionMatrix_eq hsh2 3 (by decide) rfl rfl m n b1 b2 b3 hsize
  have hr : ((3 : Nat) : Int) / 2 = 1 := by decide
  rw [hr] at hA
  have s01 := stored_emitted hsh2.coeff 1 (m : Int) (n : Int) 0 0 0 1
    (by omega) (by omega) (by omega) (by omega) (by omega) (by omega) (by omega) (by omega)
  have s10 := stored_emitted hsh2.coeff 1 (m : Int) (n : Int) 0 1 0 0
    (by omega) (by omega) (by omega) (by omega) (by omega) (by omega) (by omega) (by omega)
  simp only [zero_mul, zero_add, add_zero, sub_zero, sub_self, abs_zero, abs_one, zero_sub,
    abs_neg, zero_le_one, le_refl, and_self, if_true] at s01 s10
  replace s01 : (SparseMatrix.mk ((m : Int) * n) ((m : Int) * n)
      (emitted hsh2.coeff 1 (m : Int) (n : Int))).stored 0 1 = [Triplet.mk 0 1 (-3)] := s01
  replace s10 : (SparseMatrix.mk ((m : Int) * n) ((m : Int) * n)
      (emitted hsh2.coeff 1 (m : Int) (n : Int))).stored 1 0 = [Triplet.mk 1 0 (-1)] := s10
  have c01 : (SparseMatrix.mk ((m : Int) * n) ((m : Int) * n)
      (emitted hsh2.coeff 1 (m : Int) (n : Int))).coeff 0 1 = -3 := by
    unfold SparseMatrix.coeff
    rw [s01]
    simp
  have c10 : (SparseMatrix.mk ((m : Int) * n) ((m : Int) * n)
      (emitted hsh2.coeff 1 (m : Int) (n : Int))).coeff 1 0 = -1 := by
    unfold SparseMatrix.coeff
    rw [s10]
    simp
  have hmn : (9 : Int) ≤ (m : Int) * n := by
    have h1 : (3 : Int) ≤ m := by omega
    have h2 : (3 : Int) ≤ n := by omega
    nlinarith
  refine ⟨_, hA, ⟨0, 1, by omega, by omega, by omega, by omega, ?_⟩, c01, c10, ?_⟩
  · rw [c01, c10]
    norm_num
  · have hmem : Triplet.mk 0 1 (-3 : ℚ) ∈ emitted hsh2.coeff 1 (m : Int) (n : Int) := by
      have : Triplet.mk 0 1 (-3 : ℚ) ∈ (SparseMatrix.mk ((m : Int) * n) ((m : Int) * n)
          (emitted hsh2.coeff 1 (m : Int) (n : Int))).stored 0 1 := by
        rw [s01]
        exact List.mem_singleton_self _
      exact (List.mem_filter.mp this).1
    have hpos : ((0 : Int), (1 : Int)) ∈ ((SparseMatrix.sub
        (SparseMatrix.mk ((m : Int) * n) ((m : Int) * n)
          (emitted hsh2.coeff 1 (m : Int) (n : Int)))
        (SparseMatrix.mk ((m : Int) * n) ((m : Int) * n)
          (emitted hsh2.coeff 1 (m : Int) (n : Int))).transpose).entries).map Triplet.pos := by
      unfold SparseMatrix.sub
      simp only
      rw [(setFromTriplets_spec _).2.2]
      rw [List.map_append, List.mem_append]
      left
      exact List.mem_map.mpr ⟨_, hmem, rfl⟩
    rw [List.mem_map] at hpos
    obtain ⟨e, he, hep⟩ := hpos
    have hval := sub_transpose_value _ e he
    simp only [Triplet.pos, Prod.mk.injEq] at hep
    rw [hep.1, hep.2, c01, c10] at hval
    have hsq : e.value * e.value = 4 := by
      rw [hval]
      norm_num
    have hle : e.value * e.value ≤ (SparseMatrix.sub
        (SparseMatrix.mk ((m : Int) * n) ((m : Int) * n)
          (emitted hsh2.coeff 1 (m : Int) (n : Int)))
        (SparseMatrix.mk ((m : Int) * n) ((m : Int) * n)
          (emitted hsh2.coeff 1 (m : Int) (n : Int))).transpose).squaredNorm :=
      List.single_le_sum (squaredNorm_nonneg_terms _) _ (List.mem_map.mpr ⟨e, he, rfl⟩)
    rw [hsq] at hle
    refine lt_of_lt_of_le ?_ hle
    norm_num

/-- C7 on a 3×3 grid. -/
theorem hsh2_operator_not_symmetric_witness :
    ∃ A : SparseMatrix ℚ, convolutionMatrix hsh2 ((3 : Nat) : Int) ((3 : Nat) : Int) = some A ∧
      (∃ r c : Int, 0 ≤ r ∧ r < ((3 : Nat) : Int) * (3 : Nat) ∧ 0 ≤ c ∧
        c < ((3 : Nat) : Int) * (3 : Nat) ∧ A.coeff r c ≠ A.coeff c r) ∧
      A.coeff 0 1 = -3 ∧ A.coeff 1 0 = -1 ∧
      (1 / 10 ^ 6) ^ 2 < (A.sub A.transpose).squaredNorm :=
  hsh2_operator_not_symmetric 3 3 (by decide) (by decide) (by decide)

/-! ## The quantiser of `filterImage` -/

/-- C8, as stated, fails: at the `double` 0.996 the quantiser of `filterImage` yields the
byte 253, whereas rounding the clamped product yields 254. -/
theorem scaleThenClamp_is_not_round :
    scaleThenClamp (roundDouble 0.996) = 253 ∧
    round (max 0 (min 255 (roundDouble (roundDouble 0.996 * 255)))) = 254 := by
  constructor
  · refine scaleThenClamp_eq_of _ 253 ?_ ?_
    · rw [product_0996]
      norm_num
    · rw [product_0996]
      norm_num
  · rw [product_0996, round_eq, Int.floor_eq_iff]
    norm_num

/-- C8, amended: `filterImage` applies `scaleThenClamp` to each output pixel, and for every
value `v` that quantiser returns the byte `floor(clamp(v*255, 0, 255))`, where `v*255` is
the `double` product (rounded to the nearest `double`) and the fractional part is
discarded, not rounded; the byte lies in `0..255`; the `double` 1.2 yields 255 and the
`double` 0.996 yields 253. The rounding of the product is part of the result: the `double`
nearest `1/255` yields 1, although its exact product with 255 is below 1. -/
theorem scaleThenClamp_truncates :
    (∀ (A : SparseMatrix ℚ) (v : List ℚ) (height width : Int),
      filterImage A v height width = (sharpen_image_matrix A v height width).map
        fun g => g.map fun row => row.map scaleThenClamp) ∧
    (∀ v : ℚ, (scaleThenClamp v : Int) = ⌊max 0 (min 255 (roundDouble (v * 255)))⌋ ∧
      scaleThenClamp v ≤ 255) ∧
    scaleThenClamp (roundDouble 1.2) = 255 ∧ scaleThenClamp (roundDouble 0.996) = 253 ∧
    scaleThenClamp (roundDouble (1 / 255)) = 1 ∧ ⌊roundDouble (1 / 255) * 255⌋ = 0 := by
  refine ⟨fun _ _ _ _ => rfl, fun v => ⟨scaleThenClamp_floor v, scaleThenClamp_le v⟩,
    ?_, ?_, ?_, ?_⟩
  · have h : 255 ≤ roundDouble (roundDouble 1.2 * 255) := by
      refine le_roundDouble_255 _ ?_
      rw [roundDouble_12]
      norm_num
    refine scaleThenClamp_eq_of _ 255 ?_ ?_
    · rw [min_eq_left h]
      norm_num
    · rw [min_eq_left h]
      norm_num
  · refine scaleThenClamp_eq_of _ 253 ?_ ?_
    · rw [product_0996]
      norm_num
    · rw [product_0996]
      norm_num
  · refine scaleThenClamp_eq_of _ 1 ?_ ?_
    · rw [product_inv255]
      norm_num
    · rw [product_inv255]
      norm_num
  · rw [roundDouble_inv255, Int.floor_eq_iff]
    norm_num

/-! ## The two quantisation modes -/

/-- C9, as stated, fails: no value outside `[0, 1]` separates the two quantisation modes. -/
theorem no_value_separates_quantisers :
    ¬ ∃ v : ℚ, (v < 0 ∨ 1 < v) ∧ clampThenScale v ≠ scaleThenClamp v := by
  rintro ⟨v, -, h⟩
  exact h (clampThenScale_eq v)

/-- C9, amended: the two quantisation modes are distinct code paths with equal results:
for every value `v`, `clampThenScale v = scaleThenClamp v`; both give 0 for `v < 0` and
255 for `v > 1`. -/
theorem quantisers_agree :
    ∀ v : ℚ, clampThenScale v = scaleThenClamp v ∧
      (v < 0 → scaleThenClamp v = 0) ∧ (1 < v → scaleThenClamp v = 255) := by
  intro v
  refine ⟨clampThenScale_eq v, ?_, ?_⟩
  · intro hv
    have h1 := roundDouble_nonpos (v * 255) (by linarith)
    have h : max 0 (min 255 (roundDouble (v * 255))) = 0 := by
      refine max_eq_left ?_
      exact le_trans (min_le_right _ _) h1
    exact scaleThenClamp_eq_of v 0 (by rw [h]; norm_num) (by rw [h]; norm_num)
  · intro hv
    have h1 := le_roundDouble_255 (v * 255) (by linarith)
    have h : max 0 (min 255 (roundDouble (v * 255))) = 255 := by
      rw [min_eq_left h1]
      norm_num
    exact scaleThenClamp_eq_of v 255 (by rw [h]; norm_num) (by rw [h]; norm_num)

/-! ## Transposing the operator -/

/-- C10: for an odd `k`×`k` kernel `K` and an `m`×`n` grid, with `k`, `m`, `n` and `m*n*k*k`
within the `int` range, the transpose of
`convolutionMatrix(K, m, n)` has the dimensions and the stored entries (positions and
values) of `convolutionMatrix(K', m, n)`, where `K'[a][b] = K[k-1-a][k-1-b]`; hence a kernel
with `K[a][b] = K[k-1-a][k-1-b]` for all `a, b` yields a symmetric operator. -/
theorem transpose_is_reflected_kernel {α : Type} [AddCommMonoid α] (K : Kernel α) (k : Nat)
    (hk : k % 2 = 1) (hrows : K.rows = k) (hcols : K.cols = k) (m n : Nat)
    (hm : m ≤ 2147483647) (hn : n ≤ 2147483647)
    (hk' : k ≤ 2147483647) (hsize : m * n * k * k ≤ 2147483647) :
    ∃ A B : SparseMatrix α, convolutionMatrix K (m : Int) (n : Int) = some A ∧
      convolutionMatrix K.reflect (m : Int) (n : Int) = some B ∧
      (∀ a b : Nat, K.reflect.coeff a b = K.coeff (k - 1 - a) (k - 1 - b)) ∧
      A.transpose.rows = B.rows ∧ A.transpose.cols = B.cols ∧
      A.transpose.entries.Perm B.entries ∧
      (∀ r c : Int, A.transpose.stored r c = B.stored r c) ∧
      ((∀ a b : Nat, a < k → b < k → K.coeff a b = K.coeff (k - 1 - a) (k - 1 - b)) →
        A.transpose.entries.Perm A.entries ∧ ∀ r c : Int, A.coeff r c = A.coeff c r) := by
  obtain ⟨-, hA⟩ := convolutionMatrix_eq K k hk hrows hcols m n hm hn hk' hsize
  obtain ⟨-, hB⟩ := convolutionMatrix_eq K.reflect k hk hrows hcols m n hm hn hk' hsize
  have hperm := transpose_emitted_perm K k hk hrows hcols (m : Int) (n : Int)
  refine ⟨_, _, hA, hB, ?_, rfl, rfl, hperm, ?_, ?_⟩
  · intro a b
    unfold Kernel.reflect
    simp only [hrows, hcols]
  · intro r c
    refine eq_of_perm_of_short _ _ (hperm.filter _) ?_
    exact stored_nil_or_singleton _ (nodup_emitted _ _ _ _) r c
  · intro hsym
    have hself := transpose_emitted_perm_self K k hk hrows hcols (m : Int) (n : Int) hsym
    refine ⟨hself, ?_⟩
    intro r c
    exact (coeff_transpose _ c r).symm.trans (coeff_perm _ _ hself c r)

/-- C10 at the 3×3 sample kernel on a 2×3 grid. -/
theorem transpose_is_reflected_kernel_witness :
    ∃ A B : SparseMatrix Int,
      convolutionMatrix sampleKernel ((2 : Nat) : Int) ((3 : Nat) : Int) = some A ∧
      convolutionMatrix sampleKernel.reflect ((2 : Nat) : Int) ((3 : Nat) : Int) = some B ∧
      (∀ a b : Nat, sampleKernel.reflect.coeff a b = sampleKernel.coeff (3 - 1 - a) (3 - 1 - b)) ∧
      A.transpose.rows = B.rows ∧ A.transpose.cols = B.cols ∧
      A.transpose.entries.Perm B.entries ∧
      (∀ r c : Int, A.transpose.stored r c = B.stored r c) ∧
      ((∀ a b : Nat, a < 3 → b < 3 →
          sampleKernel.coeff a b = sampleKernel.coeff (3 - 1 - a) (3 - 1 - b)) →
        A.transpose.entries.Perm A.entries ∧ ∀ r c : Int, A.coeff r c = A.coeff c r) :=
  transpose_is_reflected_kernel sampleKernel 3 (by decide) rfl rfl 2 3
    (by decide) (by decide) (by decide) (by decide)

end Challenge1
